import Mathlib

/-!
Verification development for the single-host web crawler
(package internal/crawler with platform packages).

The crawler code lives in Go.  We give a shallow embedding:

* A model of the fragment of the Go standard library package net/url that
  the crawler relies on (url.Parse, URL.ResolveReference, URL.String,
  URL.Hostname).  Strings are modelled as lists of characters.  The model
  is the behaviour of net/url restricted to an explicitly documented
  fragment: ASCII input drawn from a fixed character set, no
  percent-escaping (inputs never contain a percent sign, so escaped and
  unescaped forms coincide), no userinfo component, no IPv6 host
  brackets, at most one colon inside an authority (the host:port form),
  and the pre-1.19 URL representation (no OmitHost field: a URL with a
  scheme and an empty host serialises with an explicit // as in older Go
  releases).  Inputs outside the fragment make the modelled parser fail;
  all statements about parse failure are relative to this fragment.

* Direct translations of the crawler functions: Sanitize, Key, InScope
  (internal/crawler/util.go), the worker and processWorkItem and isHTML
  (internal/crawler/worker.go), and the coordinator logic: NewCoordinator
  buffer sizing, processResult, sanitizeLinks, printResult
  (the current coordinator revision, internal/crawler/util.go).

* A small-step transition system for the crawl loop, used for the
  outstanding-work counter invariant.
-/

namespace Crawler

/-- Character strings of the model (Go strings are byte strings; the
fragment is ASCII so characters suffice). -/
abbrev Chars := List Char

/-- The characters admitted by the net/url model.  Go only rejects ASCII
control characters; the model additionally excludes characters that
would make escaping or userinfo/IPv6 parsing relevant (percent, at-sign,
brackets, space, quotes, and similar), so that serialisation is
escape-free. -/
def urlChar (c : Char) : Bool :=
  c.isAlphanum || c == '-' || c == '.' || c == '_' || c == '~' || c == '$' ||
  c == '&' || c == '+' || c == ',' || c == ':' || c == ';' || c == '=' ||
  c == '@' || c == '/' || c == '?' || c == '#'

/-- Characters allowed in a registered host name in the model (no colon:
the colon only separates the port). -/
def hostChar (c : Char) : Bool :=
  c.isAlphanum || c == '-' || c == '.' || c == '_' || c == '~'

/-- Model of the URL structure of net/url (fields used by the crawler).
Field Opaque of Go is called opq here.  RawPath, User and OmitHost are
outside the modelled fragment. -/
structure GoURL where
  scheme : Chars
  opq : Chars
  host : Chars
  path : Chars
  forceQuery : Bool
  rawQuery : Chars
  fragment : Chars
deriving DecidableEq, Repr

/-- The empty URL (all fields empty), as produced by url.Parse of an
empty string. -/
def GoURL.empty : GoURL :=
  { scheme := [], opq := [], host := [], path := [], forceQuery := false,
    rawQuery := [], fragment := [] }

/-- strings.Cut on a single character: (before, after, found), cutting at
the first occurrence. -/
def cutChar (sep : Char) : Chars → Chars × Chars × Bool
  | [] => ([], [], false)
  | c :: cs =>
    if c == sep then ([], cs, true)
    else
      let r := cutChar sep cs
      (c :: r.1, r.2.1, r.2.2)

/-- Result of getScheme in net/url: a parse error (colon first), no
scheme present, or a scheme together with the rest. -/
inductive SchemeRes where
  | err : SchemeRes
  | noScheme : SchemeRes
  | found : Chars → Chars → SchemeRes
deriving DecidableEq, Repr

/-- Model of getScheme of net/url.  Scans for a colon over scheme
characters; a leading digit or punctuation means no scheme; a leading
colon is an error; any other character means no scheme. -/
def getSchemeAux (first : Bool) (acc : Chars) : Chars → SchemeRes
  | [] => .noScheme
  | c :: cs =>
    if c.isAlpha then getSchemeAux false (acc ++ [c]) cs
    else if c.isDigit || c == '+' || c == '-' || c == '.' then
      if first then .noScheme else getSchemeAux false (acc ++ [c]) cs
    else if c == ':' then
      if first then .err else .found acc cs
    else .noScheme

/-- Model of the query split in net/url parse: if the input ends with a
question mark and contains no other question mark, the query is forced
and empty; otherwise cut at the first question mark.
Returns (rest, forceQuery, rawQuery). -/
def splitQuery (rest : Chars) : Chars × Bool × Chars :=
  if rest.getLast? == some '?' && !(rest.dropLast.contains '?') then
    (rest.dropLast, true, [])
  else
    let r := cutChar '?' rest
    (r.1, false, r.2.1)

/-- Model of parseHost of net/url on the fragment: no userinfo, no IPv6;
the part after the first colon, if any, must be all digits (the port);
host-name characters are restricted to hostChar. -/
def parseHostL (authority : Chars) : Option Chars :=
  match cutChar ':' authority with
  | (hn, p, true) =>
    if hn.all hostChar && p.all Char.isDigit then some authority else none
  | (hn, _, false) =>
    if hn.all hostChar then some authority else none

/-- Model of the body of net/url parse after the scheme and query have
been split off: opaque part, authority, or path, following the Go
control flow (viaRequest is false). -/
def parseCore (scheme rest1 : Chars) (fq : Bool) (rq : Chars) : Option GoURL :=
  if rest1.head? ≠ some '/' then
    if scheme ≠ [] then
      some { scheme := scheme, opq := rest1, host := [], path := [],
             forceQuery := fq, rawQuery := rq, fragment := [] }
    else if ((cutChar '/' rest1).1).contains ':' then
      none
    else
      some { scheme := [], opq := [], host := [], path := rest1,
             forceQuery := fq, rawQuery := rq, fragment := [] }
  else if (scheme ≠ [] || rest1.take 3 ≠ ['/', '/', '/']) && rest1.take 2 = ['/', '/'] then
    let afterSlashes := rest1.drop 2
    let c := cutChar '/' afterSlashes
    let rest2 : Chars := if c.2.2 then '/' :: c.2.1 else []
    match parseHostL c.1 with
    | none => none
    | some host =>
      some { scheme := scheme, opq := [], host := host, path := rest2,
             forceQuery := fq, rawQuery := rq, fragment := [] }
  else
    some { scheme := scheme, opq := [], host := [], path := rest1,
           forceQuery := fq, rawQuery := rq, fragment := [] }

/-- Model of url.Parse on the fragment: reject characters outside the
fragment, split the fragment part at the first hash, find the scheme
(lowercasing it as Go does), split the query, then parse the body. -/
def parseL (s : Chars) : Option GoURL :=
  if s.all urlChar then
    let fcut := cutChar '#' s
    let core :=
      match getSchemeAux true [] fcut.1 with
      | .err => none
      | .noScheme =>
        let q := splitQuery fcut.1
        parseCore [] q.1 q.2.1 q.2.2
      | .found sch rest =>
        let q := splitQuery rest
        parseCore (sch.map Char.toLower) q.1 q.2.1 q.2.2
    match core with
    | none => none
    | some u => some (if fcut.2.2 then { u with fragment := fcut.2.1 } else u)
  else none

/-- First path segment (up to the first slash), used by the Go String
method for the dot-slash disambiguation. -/
def firstSegment (p : Chars) : Chars := (cutChar '/' p).1

/-- Model of URL.String of net/url on the fragment (pre-1.19
representation: a URL with a scheme or host always serialises the //
separator when a host or path is present). -/
def urlStringL (u : GoURL) : Chars :=
  (if u.scheme ≠ [] then u.scheme ++ [':'] else []) ++
  (if u.opq ≠ [] then u.opq
   else
     (if u.scheme ≠ [] ∨ u.host ≠ [] then
        (if u.host ≠ [] ∨ u.path ≠ [] then ['/', '/'] else []) ++ u.host
      else []) ++
     (if u.path ≠ [] ∧ u.path.head? ≠ some '/' ∧ u.host ≠ [] then ['/'] else []) ++
     (if u.scheme = [] ∧ u.host = [] ∧ (firstSegment u.path).contains ':' then ['.', '/'] else []) ++
     u.path) ++
  (if u.forceQuery ∨ u.rawQuery ≠ [] then '?' :: u.rawQuery else []) ++
  (if u.fragment ≠ [] then '#' :: u.fragment else [])

/-- Everything up to and including the last slash (Go:
base[:strings.LastIndex(base, "/")+1]). -/
def upToLastSlash (l : Chars) : Chars :=
  (l.reverse.dropWhile (fun c => c ≠ '/')).reverse

/-- Model of resolvePath of net/url: merge the reference path with the
base path and remove dot segments (the classic Split/Join algorithm of
net/url). -/
def resolvePath (base ref : Chars) : Chars :=
  let full :=
    if ref = [] then base
    else if ref.head? ≠ some '/' then upToLastSlash base ++ ref
    else ref
  if full = [] then []
  else
    let src := full.splitOn '/'
    let dst := src.foldl
      (fun dst elem =>
        if elem = ['.'] then dst
        else if elem = ['.', '.'] then dst.dropLast
        else dst ++ [elem])
      ([] : List Chars)
    let dst := if src.getLast? = some ['.'] ∨ src.getLast? = some ['.', '.'] then
        dst ++ [([] : Chars)]
      else dst
    let joined := List.intercalate ['/'] dst
    '/' :: (if joined.head? = some '/' then joined.drop 1 else joined)

/-- Model of URL.ResolveReference of net/url (User is outside the
fragment; EscapedPath coincides with Path on the fragment). -/
def resolveReference (u ref : GoURL) : GoURL :=
  let url1 := if ref.scheme = [] then { ref with scheme := u.scheme } else ref
  if ref.scheme ≠ [] ∨ ref.host ≠ [] then
    { url1 with path := resolvePath ref.path [] }
  else if ref.opq ≠ [] then
    { url1 with host := [], path := [] }
  else
    let url2 := if ref.path = [] ∧ ¬ ref.forceQuery ∧ ref.rawQuery = [] then
        { url1 with rawQuery := u.rawQuery,
                    fragment := if ref.fragment = [] then u.fragment else ref.fragment }
      else url1
    if ref.path = [] ∧ u.opq ≠ [] then
      { url2 with opq := u.opq, host := [], path := [] }
    else
      { url2 with host := u.host, path := resolvePath u.path ref.path }

/-- strings.ToLower on the fragment (ASCII). -/
def lowerL (l : Chars) : Chars := l.map Char.toLower

/-- strings.TrimSuffix. -/
def trimSuffixL (l suf : Chars) : Chars :=
  if suf.isSuffixOf l then l.take (l.length - suf.length) else l

/-- The normalisation steps shared verbatim by Sanitize and Key in
internal/crawler/util.go: lowercase the host, strip the default port
(80 for http, 443 for https), replace an empty path by a single slash,
and clear the fragment. -/
def normalizeURL (u : GoURL) : GoURL :=
  let u1 := { u with host := lowerL u.host }
  let u2 := if u1.scheme = ['h', 't', 't', 'p'] ∧ [':', '8', '0'].isSuffixOf u1.host then
      { u1 with host := trimSuffixL u1.host [':', '8', '0'] }
    else u1
  let u3 := if u2.scheme = ['h', 't', 't', 'p', 's'] ∧ [':', '4', '4', '3'].isSuffixOf u2.host then
      { u2 with host := trimSuffixL u2.host [':', '4', '4', '3'] }
    else u2
  let u4 := if u3.path = [] then { u3 with path := ['/'] } else u3
  { u4 with fragment := [] }

/-- Characters that may occur in a path or opaque component (no
question mark or hash: those are structural). -/
def pathChar (c : Char) : Bool := urlChar c && c ≠ '?' && c ≠ '#'

/-- Characters that may occur in a raw query (no hash). -/
def queryChar (c : Char) : Bool := urlChar c && c ≠ '#'

/-- Lowercase ASCII letter. -/
def lowerAlpha (c : Char) : Bool := 97 ≤ c.toNat && c.toNat ≤ 122

/-- Characters that keep the getScheme scan going: letters, digits,
plus, minus, dot. -/
def schemeContChar (c : Char) : Bool :=
  c.isAlpha || c.isDigit || c == '+' || c == '-' || c == '.'

/-- A well-formed scheme as produced by url.Parse: empty, or a
lowercased word starting with a letter over letters, digits, plus,
minus and dot. -/
def schemeOKL : Chars → Bool
  | [] => true
  | c :: cs =>
    lowerAlpha c &&
    cs.all (fun d => lowerAlpha d || d.isDigit || d == '+' || d == '-' || d == '.')

/-- A well-formed host as accepted by the modelled parseHost: a host
name over hostChar, optionally followed by a colon and digits. -/
def hostOKL (h : Chars) : Bool :=
  match cutChar ':' h with
  | (hn, p, true) => hn.all hostChar && p.all Char.isDigit
  | (hn, _, false) => hn.all hostChar

/-- The URL structures in the range of the modelled parser (and closed
under the operations the crawler performs on them).  These are the
invariants that make serialisation followed by parsing the identity up
to postParse. -/
def wfURL (u : GoURL) : Bool :=
  schemeOKL u.scheme &&
  u.opq.all pathChar &&
  (u.opq = [] ||
    (u.scheme ≠ [] && u.opq.head? ≠ some '/' && u.host = [] &&
     (u.path = [] || u.path = ['/']))) &&
  hostOKL u.host &&
  u.path.all pathChar &&
  u.rawQuery.all queryChar &&
  u.fragment.all urlChar &&
  (!(u.scheme ≠ [] || u.host ≠ []) || u.path = [] || u.path.head? = some '/') &&
  (!(u.scheme = [] && u.host = [] && u.path.head? ≠ some '/') ||
    !(firstSegment u.path).contains ':') &&
  (!(u.scheme = [] && u.host = [] && u.path.take 2 = ['/', '/']) ||
    u.path.take 3 = ['/', '/', '/'])

/-- What parsing the serialisation of a well-formed URL yields: the URL
itself, except that the path (which the serialiser does not emit when
the URL is opaque) comes back empty. -/
def postParse (u : GoURL) : GoURL :=
  if u.opq ≠ [] then { u with path := [] } else u

/-- Spec-side normalisation for claim C4, written from the words of the
spec (steps four to eight of the Sanitize description): lowercase the
host; strip the default port (80 for http, 443 for https); an empty
path becomes a single slash and a non-empty path is preserved verbatim;
the fragment is cleared; the query is preserved byte for byte. -/
def specNormalizeURL (abs : GoURL) : GoURL :=
  { abs with
    host :=
      let h := lowerL abs.host
      if abs.scheme = ['h', 't', 't', 'p'] ∧ [':', '8', '0'].isSuffixOf h then
        trimSuffixL h [':', '8', '0']
      else if abs.scheme = ['h', 't', 't', 'p', 's'] ∧ [':', '4', '4', '3'].isSuffixOf h then
        trimSuffixL h [':', '4', '4', '3']
      else h,
    path := if abs.path = [] then ['/'] else abs.path,
    fragment := [] }

/-- url.Parse at the String level. -/
def parseURL (s : String) : Option GoURL := parseL s.data

/-- Sanitize of internal/crawler/util.go: parse the href as a URL
reference, resolve it against the base URL, require an http or https
scheme, then normalise (host lowercased, default port stripped, empty
path set to slash, fragment cleared) and serialise.  Returns the pair
(absolute, ok) exactly as the Go function does. -/
def Sanitize (href : String) (baseURL : GoURL) : String × Bool :=
  match parseURL href with
  | none => ("", false)
  | some ref =>
    let absURL := resolveReference baseURL ref
    if absURL.scheme ≠ ['h', 't', 't', 'p'] ∧ absURL.scheme ≠ ['h', 't', 't', 'p', 's'] then
      ("", false)
    else
      (⟨urlStringL (normalizeURL absURL)⟩, true)

/-- Key of internal/crawler/util.go: parse, apply the same normalisation
as Sanitize, and serialise; return the input unchanged if parsing
fails. -/
def Key (urlStr : String) : String :=
  match parseURL urlStr with
  | none => urlStr
  | some u => ⟨urlStringL (normalizeURL u)⟩

/-- URL.Hostname of net/url on the fragment: strip the port (the part
after the colon, when it is all digits). -/
def hostnameL (hostPort : Chars) : Chars :=
  match cutChar ':' hostPort with
  | (h, p, true) => if p.all Char.isDigit then h else hostPort
  | _ => hostPort

/-- InScope of internal/crawler/util.go: parse, compare the lowercased
hostname with the lowercased start host. -/
def InScope (urlStr startHost : String) : Bool :=
  match parseURL urlStr with
  | none => false
  | some u => lowerL (hostnameL u.host) = lowerL startHost.data

/-! ## The worker (internal/crawler/worker.go) -/

/-- Result of internal/crawler/interfaces.go.  A nil Links slice is
modelled as none, a non-nil slice as some; a nil error as none. -/
structure Result where
  url : String
  finalURL : String
  links : Option (List String)
  err : Option String
deriving DecidableEq, Repr

/-- Outcome of calling into the fetcher or parser: a value, an error, or
a panic (an unexpected abort that unwinds until recovered). -/
inductive CallRes (α : Type) where
  | ok : α → CallRes α
  | err : String → CallRes α
  | panicked : String → CallRes α

/-- FetchResult of internal/crawler/interfaces.go. -/
structure FetchResultS where
  body : String
  finalURL : String
  contentType : String

/-- The behaviour of the fetcher and parser a worker is given; the crawl
core treats both as opaque interfaces, so the model quantifies over
them. -/
structure WorkerOracle where
  fetch : String → CallRes FetchResultS
  parse : String → CallRes (List String)

/-- Go unicode space on the fragment. -/
def isSpaceChar (c : Char) : Bool :=
  c == ' ' || c == '\t' || c == '\n' || c == '\r' || c == '\x0b' || c == '\x0c'

/-- strings.TrimSpace. -/
def trimSpaceL (l : Chars) : Chars :=
  ((l.dropWhile isSpaceChar).reverse.dropWhile isSpaceChar).reverse

/-- isHTML of internal/crawler/worker.go: an empty content type counts
as HTML; otherwise the first semicolon-separated token, trimmed and
lowercased, must be text/html. -/
def isHTML (contentType : String) : Bool :=
  if contentType = "" then true
  else lowerL (trimSpaceL (cutChar ';' contentType.data).1) = "text/html".data

/-- Outcome of running processWorkItem: either it returns a Result, or a
panic escapes from the fetcher or parser. -/
inductive RunRes where
  | ok : Result → RunRes
  | panicked : String → RunRes

/-- processWorkItem of internal/crawler/worker.go, with the fetcher and
parser behaviour given by the oracle; a panic in either propagates. -/
def processWorkItemRun (o : WorkerOracle) (itemURL : String) : RunRes :=
  match o.fetch itemURL with
  | .panicked m => .panicked m
  | .err e =>
    .ok { url := itemURL, finalURL := itemURL, links := none, err := some e }
  | .ok fr =>
    if ¬ isHTML fr.contentType then
      .ok { url := itemURL, finalURL := fr.finalURL, links := some [], err := none }
    else
      match o.parse fr.body with
      | .panicked m => .panicked m
      | .err e =>
        .ok { url := itemURL, finalURL := fr.finalURL, links := none, err := some e }
      | .ok ls =>
        .ok { url := itemURL, finalURL := fr.finalURL, links := some ls, err := none }

/-- The Results the guarded closure in worker (internal/crawler/
worker.go) sends on the results channel for one work item.  On normal
return the computed Result is sent and the sent flag is set; on a panic
no send has happened yet (the panic occurs inside fetch or parse,
before the send), so the deferred recover observes sent = false and
sends one error Result whose FinalURL field is left at its zero
value. -/
def workerSends (o : WorkerOracle) (itemURL : String) : List Result :=
  match processWorkItemRun o itemURL with
  | .ok r => [r]
  | .panicked m =>
    [{ url := itemURL, finalURL := "", links := none,
       err := some ("worker panic: " ++ m) }]

/-! ## The coordinator (current revision, internal/crawler/util.go) -/

/-- sanitizeLinks of the coordinator: parse the page URL as the base (an
unparsable page URL yields nil) and keep the ok results of Sanitize. -/
def sanitizeLinks (rawHrefs : List String) (pageURL : String) : List String :=
  match parseURL pageURL with
  | none => []
  | some base =>
    rawHrefs.filterMap fun href =>
      let r := Sanitize href base
      if r.2 then some r.1 else none

/-- The lines printResult writes in text mode: the Visited header with
the final URL, the Links found header, then (unless the result carries
an error) one line per sanitized link, resolved against the final
URL. -/
def printResultLines (r : Result) : List String :=
  ["Visited: " ++ r.finalURL, "Links found:"] ++
  (match r.err with
   | some _ => []
   | none => sanitizeLinks (r.links.getD []) r.finalURL)

/-- The coordinator configuration fields processResult reads. -/
structure CoordConfig where
  startHost : String
  maxPages : Int
deriving Repr

/-- The coordinator-owned mutable state, together with the two ghost
counters (URLs ever enqueued, results fully processed) used to state
the accounting invariant. -/
structure CoordState where
  visited : List String
  visitCount : Nat
  errorCount : Nat
  wg : Nat
  queued : List String
  output : List String
  enqueued : Nat
  processed : Nat
deriving DecidableEq, Repr

/-- The scheduling loop of processResult over the sanitized links.
cancelAt numbers the cancellation checks of one processResult call (the
pre-scheduling select is check 0, the check at the top of loop
iteration i is check 1+i); cancelAt = some n means the n-th check
observes a cancelled context.  Returns the state and whether the loop
ran to completion. -/
def processLinks (cfg : CoordConfig) (cancelAt : Option Nat) :
    Nat → List String → CoordState → CoordState × Bool
  | _, [], s => (s, true)
  | n, link :: rest, s =>
    if cancelAt = some n then (s, false)
    else
      let s :=
        if ¬ InScope link cfg.startHost then s
        else if Key link ∈ s.visited then s
        else if cfg.maxPages > 0 ∧ (s.visitCount : Int) ≥ cfg.maxPages then s
        else
          { s with visited := s.visited ++ [Key link],
                   visitCount := s.visitCount + 1,
                   wg := s.wg + 1,
                   enqueued := s.enqueued + 1,
                   queued := s.queued ++ [link] }
      processLinks cfg cancelAt (n + 1) rest s

/-- processResult of the coordinator (current revision): skip printing
when the result is a redirect whose final key is already visited,
print otherwise, then on error count it and decrement; otherwise
sanitize the links against the final URL, schedule the new in-scope
unvisited ones (incrementing the counter before each enqueue), and
decrement the counter exactly once at the end of every path. -/
def processResult (cfg : CoordConfig) (cancelAt : Option Nat) (r : Result)
    (s : CoordState) : CoordState :=
  let finalKey := Key r.finalURL
  let alreadyPrinted := r.url ≠ r.finalURL ∧ finalKey ∈ s.visited
  let s := if alreadyPrinted then s
    else { s with output := s.output ++ printResultLines r }
  match r.err with
  | some _ =>
    { s with errorCount := s.errorCount + 1, wg := s.wg - 1,
             processed := s.processed + 1 }
  | none =>
    if cancelAt = some 0 then
      { s with wg := s.wg - 1, processed := s.processed + 1 }
    else
      let sanitized := sanitizeLinks (r.links.getD []) r.finalURL
      let p := processLinks cfg cancelAt 1 sanitized s
      { p.1 with wg := p.1.wg - 1, processed := p.1.processed + 1 }

/-! ## NewCoordinator (current revision, internal/crawler/util.go) -/

/-- The configuration fields of Config that NewCoordinator inspects.
maxPages and numWorkers hold the values of Go int fields; on the
64-bit platforms the crawler targets these are 64-bit two's-complement
integers, so every arithmetic operation on them wraps (wrap64 below)
and the field values themselves lie in [-2^63, 2^63). -/
structure Config where
  startURL : String
  maxPages : Int
  numWorkers : Int
  outputFormat : String
deriving DecidableEq, Repr

/-- The coordinator fields NewCoordinator computes (the work-channel
buffer capacity is recorded explicitly). -/
structure Coordinator where
  startURL : GoURL
  startHost : String
  maxPages : Int
  numWorkers : Int
  workBuffer : Int
  outputFormat : String
deriving DecidableEq, Repr

/-- Reduction of an integer to the value of a 64-bit two's-complement
Go int: the representative of its class modulo 2^64 in
[-2^63, 2^63). -/
def wrap64 (n : Int) : Int := (n + 2 ^ 63) % 2 ^ 64 - 2 ^ 63

/-- The work-channel buffer sizing of NewCoordinator: one hundred slots
per worker, and at least one hundred.  The multiplication
cfg.NumWorkers * 100 is Go int multiplication, so it wraps at 64
bits. -/
def bufferSizeOf (numWorkers : Int) : Int :=
  let bufferSize := wrap64 (numWorkers * 100)
  if bufferSize < 100 then 100 else bufferSize

/-- NewCoordinator of the current coordinator revision: parse and
validate the start URL (http or https), normalise it through Sanitize,
re-parse the normalised form, default the output format to text, and
size the work-channel buffer. -/
def NewCoordinator (cfg : Config) : Option Coordinator :=
  match parseURL cfg.startURL with
  | none => none
  | some startURL0 =>
    if startURL0.scheme ≠ ['h', 't', 't', 'p'] ∧ startURL0.scheme ≠ ['h', 't', 't', 'p', 's'] then
      none
    else
      let r := Sanitize cfg.startURL startURL0
      if ¬ r.2 then none
      else
        match parseURL r.1 with
        | none => none
        | some startURL =>
          some { startURL := startURL,
                 startHost := ⟨hostnameL startURL.host⟩,
                 maxPages := cfg.maxPages,
                 numWorkers := cfg.numWorkers,
                 workBuffer := bufferSizeOf cfg.numWorkers,
                 outputFormat := if cfg.outputFormat = "" then "text" else cfg.outputFormat }

/-! ## The crawl loop as a transition system

One arbiter owns the state; workers pull work items and emit exactly
one Result each (the worker contract proved from worker.go); the
coordinator processes pending results with processResult.  The channel
contents, the in-flight items and the pending results are explicit. -/

/-- Global crawl state: the coordinator state plus the work items
currently held by workers and the results sent but not yet processed. -/
structure CrawlState where
  coord : CoordState
  inFlight : List String
  pending : List Result
deriving Repr

/-- The state right after the seeding steps of Crawl: the start key is
visited, the visit count and the counter are one, and the start URL is
the sole enqueued work item. -/
def initState (startURL : String) : CrawlState :=
  { coord := { visited := [Key startURL], visitCount := 1, errorCount := 0,
               wg := 1, queued := [startURL], output := [],
               enqueued := 1, processed := 0 },
    inFlight := [], pending := [] }

/-- One step of the crawl: a worker pulls the head of the work channel;
a worker finishes an in-flight item, emitting exactly one Result for it
(the worker contract); or the coordinator processes the next pending
result under some cancellation behaviour. -/
inductive CrawlStep (cfg : CoordConfig) : CrawlState → CrawlState → Prop where
  | take (w : String) (q : List String) (s : CrawlState) :
      s.coord.queued = w :: q →
      CrawlStep cfg s { s with coord := { s.coord with queued := q },
                               inFlight := s.inFlight ++ [w] }
  | emit (w : String) (l1 l2 : List String) (r : Result) (s : CrawlState) :
      s.inFlight = l1 ++ w :: l2 → r.url = w →
      CrawlStep cfg s { s with inFlight := l1 ++ l2,
                               pending := s.pending ++ [r] }
  | process (r : Result) (rest : List Result) (cancelAt : Option Nat) (s : CrawlState) :
      s.pending = r :: rest →
      CrawlStep cfg s { s with coord := processResult cfg cancelAt r s.coord,
                               pending := rest }

/-- States reachable from the seeded initial state. -/
inductive Reachable (cfg : CoordConfig) (startURL : String) : CrawlState → Prop where
  | init : Reachable cfg startURL (initState startURL)
  | step {s t : CrawlState} : Reachable cfg startURL s → CrawlStep cfg s t →
      Reachable cfg startURL t

/-! ## A heap model for the frame property of Sanitize

Go passes the base URL by pointer; ResolveReference returns a pointer
to a freshly allocated URL, and every mutation Sanitize performs is a
store through that fresh pointer.  The heap is a map from addresses to
URL values; Sanitize reads the base address and writes only the fresh
address. -/

/-- Sanitize with the Go pointer discipline made explicit: heap is the
store, basePtr the address of the base URL, freshPtr the address at
which the URL returned by ResolveReference is allocated.  Each Go
statement of Sanitize that assigns through absURL becomes a store at
freshPtr; returns the final heap and the (absolute, ok) pair. -/
def SanitizeHeap (href : String) (heap : Nat → GoURL) (basePtr freshPtr : Nat) :
    (Nat → GoURL) × String × Bool :=
  match parseURL href with
  | none => (heap, "", false)
  | some ref =>
    let h1 := Function.update heap freshPtr (resolveReference (heap basePtr) ref)
    if (h1 freshPtr).scheme ≠ ['h', 't', 't', 'p'] ∧
       (h1 freshPtr).scheme ≠ ['h', 't', 't', 'p', 's'] then
      (h1, "", false)
    else
      let h2 := Function.update h1 freshPtr { h1 freshPtr with host := lowerL (h1 freshPtr).host }
      let h3 := if (h2 freshPtr).scheme = ['h', 't', 't', 'p'] ∧
                   [':', '8', '0'].isSuffixOf (h2 freshPtr).host then
          Function.update h2 freshPtr
            { h2 freshPtr with host := trimSuffixL (h2 freshPtr).host [':', '8', '0'] }
        else h2
      let h4 := if (h3 freshPtr).scheme = ['h', 't', 't', 'p', 's'] ∧
                   [':', '4', '4', '3'].isSuffixOf (h3 freshPtr).host then
          Function.update h3 freshPtr
            { h3 freshPtr with host := trimSuffixL (h3 freshPtr).host [':', '4', '4', '3'] }
        else h3
      let h5 := if (h4 freshPtr).path = [] then
          Function.update h4 freshPtr { h4 freshPtr with path := ['/'] }
        else h4
      let h6 := Function.update h5 freshPtr { h5 freshPtr with fragment := [] }
      (h6, ⟨urlStringL (h6 freshPtr)⟩, true)

/-! ## Concrete instances used by the witnesses and counterexamples

The redirect scenario mirrors TestIntegration_RedirectDeduplication of
the repository: the root page links to old (a redirect to final) and to
page2, and page2 links directly to final. -/

/-- Coordinator configuration of the redirect scenario. -/
def cfgRedirect : CoordConfig := { startHost := "example.com", maxPages := 0 }

/-- Coordinator state after the root result was processed: old and
page2 were marked visited and enqueued, old was already taken by the
worker. -/
def sRedirect : CoordState :=
  { visited := ["https://example.com/", "https://example.com/old",
                "https://example.com/page2"],
    visitCount := 3, errorCount := 0, wg := 2,
    queued := ["https://example.com/page2"],
    output := ["Visited: https://example.com/", "Links found:",
               "https://example.com/old", "https://example.com/page2"],
    enqueued := 3, processed := 1 }

/-- The result of fetching old, which redirected to final. -/
def resOld : Result :=
  { url := "https://example.com/old", finalURL := "https://example.com/final",
    links := some [], err := none }

/-- The result of fetching page2, which links directly to final. -/
def resPage2 : Result :=
  { url := "https://example.com/page2", finalURL := "https://example.com/page2",
    links := some ["/final"], err := none }

/-- The result of the second fetch of final. -/
def resFinal : Result :=
  { url := "https://example.com/final", finalURL := "https://example.com/final",
    links := some [], err := none }

/-- A start configuration with eight workers for the NewCoordinator
witness. -/
def cfgStart : Config :=
  { startURL := "https://example.com/", maxPages := 0, numWorkers := 8,
    outputFormat := "" }

/-- A configuration NewCoordinator accepts whose worker count makes the
Go buffer computation 2^57 * 100 overflow a 64-bit int to a negative
value. -/
def cfgOverflow : Config :=
  { startURL := "https://example.com/", maxPages := 0, numWorkers := 2 ^ 57,
    outputFormat := "" }

/-- The parsed normalised start URL of cfgStart. -/
def startExample : GoURL :=
  { scheme := ['h', 't', 't', 'p', 's'], opq := [],
    host := ['e', 'x', 'a', 'm', 'p', 'l', 'e', '.', 'c', 'o', 'm'],
    path := ['/'], forceQuery := false, rawQuery := [], fragment := [] }

/-- The coordinator NewCoordinator builds from cfgStart. -/
def coordStart : Coordinator :=
  { startURL := startExample, startHost := "example.com", maxPages := 0,
    numWorkers := 8, workBuffer := 800, outputFormat := "text" }

/-- An oracle whose fetcher always panics. -/
def oraclePanic : WorkerOracle :=
  { fetch := fun _ => .panicked "fetcher panic!",
    parse := fun _ => .ok [] }

/-- An oracle whose fetcher always returns an error. -/
def oracleFetchErr : WorkerOracle :=
  { fetch := fun _ => .err "connection refused",
    parse := fun _ => .ok [] }

/-- A successful result with a rejected, an external and a duplicate
link, for the text-output witness. -/
def resText : Result :=
  { url := "https://example.com/", finalURL := "https://example.com/",
    links := some ["/a", "mailto:x@y.z", "https://external.org/b", "/a"],
    err := none }

/-- An error result for the text-output witness. -/
def resTextErr : Result :=
  { url := "https://example.com/x", finalURL := "https://example.com/x",
    links := none, err := some "connection refused" }

/-- A result whose post-redirect final URL is not in normalised form
(uppercase host), as the fetcher may report after a redirect. -/
def resUpper : Result :=
  { url := "https://example.com/old", finalURL := "https://EXAMPLE.COM/Final",
    links := some [], err := none }

/-- A heap holding the example base URL at address zero. -/
def heapExample : Nat → GoURL :=
  fun n => if n = 0 then startExample else GoURL.empty

/-! ## Character lemmas -/

theorem charToNat_inj {c d : Char} (h : c.toNat = d.toNat) : c = d := by
  rw [← Char.ofNat_toNat c, h, Char.ofNat_toNat]

theorem charToNat_ofNat {n : Nat} (h : n < 55296) : (Char.ofNat n).toNat = n := by
  unfold Char.ofNat
  rw [dif_pos (Or.inl h)]
  rfl

theorem charEq_iff {c d : Char} : c = d ↔ c.toNat = d.toNat :=
  ⟨fun h => by rw [h], charToNat_inj⟩

theorem isUpper_iff {c : Char} : c.isUpper = true ↔ 65 ≤ c.toNat ∧ c.toNat ≤ 90 := by
  simp [Char.isUpper]
  exact Iff.rfl

theorem isLower_iff {c : Char} : c.isLower = true ↔ 97 ≤ c.toNat ∧ c.toNat ≤ 122 := by
  simp [Char.isLower]
  exact Iff.rfl

theorem isDigit_iff {c : Char} : c.isDigit = true ↔ 48 ≤ c.toNat ∧ c.toNat ≤ 57 := by
  simp [Char.isDigit]
  exact Iff.rfl

theorem toLower_toNat_of_upper {c : Char} (h1 : 65 ≤ c.toNat) (h2 : c.toNat ≤ 90) :
    c.toLower.toNat = c.toNat + 32 := by
  simp only [Char.toLower, ge_iff_le]
  rw [if_pos ⟨h1, h2⟩]
  exact charToNat_ofNat (by omega)

theorem toLower_eq_self {c : Char} (h : ¬(65 ≤ c.toNat ∧ c.toNat ≤ 90)) : c.toLower = c := by
  simp only [Char.toLower, ge_iff_le]
  rw [if_neg h]

theorem toLower_idem (c : Char) : c.toLower.toLower = c.toLower := by
  by_cases h : 65 ≤ c.toNat ∧ c.toNat ≤ 90
  · have h2 := toLower_toNat_of_upper h.1 h.2
    apply toLower_eq_self
    omega
  · rw [toLower_eq_self h, toLower_eq_self h]

theorem toLower_of_isDigit {c : Char} (h : c.isDigit = true) : c.toLower = c := by
  rw [isDigit_iff] at h
  exact toLower_eq_self (by omega)

theorem toLower_of_lowerAlpha {c : Char} (h : lowerAlpha c = true) : c.toLower = c := by
  unfold lowerAlpha at h
  simp only [Bool.and_eq_true, decide_eq_true_eq] at h
  exact toLower_eq_self (by omega)

theorem hostChar_toLower {c : Char} (h : hostChar c = true) : hostChar c.toLower = true := by
  by_cases hu : 65 ≤ c.toNat ∧ c.toNat ≤ 90
  · have ht := toLower_toNat_of_upper hu.1 hu.2
    have : c.toLower.isLower = true := isLower_iff.2 (by omega)
    simp [hostChar, Char.isAlphanum, Char.isAlpha, this]
  · rw [toLower_eq_self hu]
    exact h

theorem lowerL_idem (l : Chars) : lowerL (lowerL l) = lowerL l := by
  simp only [lowerL, List.map_map]
  exact List.map_congr_left (fun c _ => toLower_idem c)

theorem lowerL_append (a b : Chars) : lowerL (a ++ b) = lowerL a ++ lowerL b := by
  simp [lowerL]

/-! ## cutChar and splitQuery lemmas -/

theorem cutChar_of_not_contains {sep : Char} {l : Chars} (h : l.contains sep = false) :
    cutChar sep l = (l, [], false) := by
  induction l with
  | nil => rfl
  | cons c cs ih =>
    simp only [List.contains_cons, Bool.or_eq_false_iff, beq_eq_false_iff_ne, ne_eq] at h
    simp only [cutChar]
    rw [if_neg (show ¬((c == sep) = true) by simp only [beq_iff_eq]; exact fun hc => h.1 hc.symm)]
    rw [ih h.2]

theorem cutChar_append {sep : Char} {l r : Chars} (h : l.contains sep = false) :
    cutChar sep (l ++ sep :: r) = (l, r, true) := by
  induction l with
  | nil => simp [cutChar]
  | cons c cs ih =>
    simp only [List.contains_cons, Bool.or_eq_false_iff, beq_eq_false_iff_ne, ne_eq] at h
    rw [List.cons_append]
    simp only [cutChar]
    rw [if_neg (show ¬((c == sep) = true) by simp only [beq_iff_eq]; exact fun hc => h.1 hc.symm)]
    rw [ih h.2]

theorem cutChar_found {sep : Char} {l a b : Chars} (h : cutChar sep l = (a, b, true)) :
    l = a ++ sep :: b ∧ a.contains sep = false := by
  induction l generalizing a with
  | nil => simp [cutChar] at h
  | cons c cs ih =>
    rcases hcc : cutChar sep cs with ⟨a1, b1, f1⟩
    simp only [cutChar, hcc] at h
    by_cases hc : c = sep
    · rw [if_pos (by simpa using hc)] at h
      simp only [Prod.mk.injEq] at h
      obtain ⟨ha, hb, -⟩ := h
      subst ha; subst hb
      simp [hc]
    · rw [if_neg (by simpa using hc)] at h
      simp only [Prod.mk.injEq] at h
      obtain ⟨ha, hb, hf⟩ := h
      obtain ⟨h1, h2⟩ := ih (a := a1) (by rw [hcc, hb, hf])
      subst ha
      constructor
      · rw [List.cons_append, ← h1]
      · simp only [List.contains_cons, Bool.or_eq_false_iff, beq_eq_false_iff_ne, ne_eq]
        exact ⟨fun hh => hc hh.symm, h2⟩

theorem cutChar_not_found {sep : Char} {l a b : Chars} (h : cutChar sep l = (a, b, false)) :
    a = l ∧ b = [] ∧ l.contains sep = false := by
  induction l generalizing a with
  | nil =>
    simp only [cutChar, Prod.mk.injEq] at h
    exact ⟨h.1.symm, h.2.1.symm, rfl⟩
  | cons c cs ih =>
    rcases hcc : cutChar sep cs with ⟨a1, b1, f1⟩
    simp only [cutChar, hcc] at h
    by_cases hc : c = sep
    · rw [if_pos (by simpa using hc)] at h
      simp at h
    · rw [if_neg (by simpa using hc)] at h
      simp only [Prod.mk.injEq] at h
      obtain ⟨ha, hb, hf⟩ := h
      obtain ⟨h1, h2, h3⟩ := ih (a := a1) (by rw [hcc, hb, hf])
      subst ha
      refine ⟨by rw [h1], h2, ?_⟩
      simp only [List.contains_cons, Bool.or_eq_false_iff, beq_eq_false_iff_ne, ne_eq]
      exact ⟨fun hh => hc hh.symm, h3⟩

theorem splitQuery_no_query {l : Chars} (h : l.contains '?' = false) :
    splitQuery l = (l, false, []) := by
  unfold splitQuery
  rw [if_neg, cutChar_of_not_contains h]
  intro hcond
  simp only [Bool.and_eq_true, beq_iff_eq, Bool.not_eq_eq_eq_not, Bool.not_true] at hcond
  have hm : '?' ∈ l := by
    rcases List.getLast?_eq_some_iff.1 hcond.1 with ⟨l2, hl2⟩
    rw [hl2]
    exact List.mem_append_right _ (by simp)
  simp only [List.contains_eq_any_beq] at h
  rw [List.any_eq_false] at h
  exact h _ hm (by simp)

theorem splitQuery_force {l : Chars} (h : l.contains '?' = false) :
    splitQuery (l ++ ['?']) = (l, true, []) := by
  unfold splitQuery
  rw [if_pos]
  · rw [List.dropLast_concat]
  · rw [List.dropLast_concat]
    rw [h]
    simp

theorem splitQuery_query {l q : Chars} (h : l.contains '?' = false) (hq : q ≠ []) :
    splitQuery (l ++ '?' :: q) = (l, false, q) := by
  unfold splitQuery
  rw [if_neg, cutChar_append h]
  intro hcond
  simp only [Bool.and_eq_true, beq_iff_eq, Bool.not_eq_eq_eq_not, Bool.not_true] at hcond
  have hdl : (l ++ '?' :: q).dropLast = l ++ ('?' :: q).dropLast := by
    rw [List.dropLast_append_of_ne_nil]
    simp
  rw [hdl] at hcond
  have hm : ('?' : Char) ∈ l ++ ('?' :: q).dropLast := by
    apply List.mem_append_right
    cases q with
    | nil => exact absurd rfl hq
    | cons x xs => simp [List.dropLast_cons_of_ne_nil]
  have h2 := hcond.2
  simp only [List.contains_eq_any_beq] at h2
  rw [List.any_eq_false] at h2
  exact h2 _ hm (by simp)

/-! ## getScheme lemmas -/

theorem firstSegment_cons (c : Char) (cs : Chars) :
    firstSegment (c :: cs) = if c = '/' then [] else c :: firstSegment cs := by
  unfold firstSegment
  simp only [cutChar]
  by_cases hc : c = '/'
  · rw [if_pos (by simpa using hc), if_pos hc]
  · rw [if_neg (by simpa using hc), if_neg hc]

theorem getSchemeAux_cont {s : Chars} (hs : s.all schemeContChar = true) :
    ∀ (acc : Chars) (r : Chars),
      getSchemeAux false acc (s ++ ':' :: r) = .found (acc ++ s) r := by
  induction s with
  | nil =>
    intro acc r
    simp only [List.nil_append, getSchemeAux]
    norm_num
    rw [if_neg (by decide), if_neg (by decide)]
  | cons c cs ih =>
    intro acc r
    simp only [List.all_cons, Bool.and_eq_true] at hs
    rw [List.cons_append]
    by_cases ha : c.isAlpha = true
    · simp only [getSchemeAux, ha, if_true]
      rw [ih hs.2 (acc ++ [c]) r]
      simp
    · have hd : (c.isDigit || c == '+' || c == '-' || c == '.') = true := by
        have := hs.1
        unfold schemeContChar at this
        simp only [Bool.or_eq_true] at this ⊢
        rcases this with ((((h1 | h2) | h3) | h4) | h5)
        · exact absurd h1 ha
        · exact Or.inl (Or.inl (Or.inl h2))
        · exact Or.inl (Or.inl (Or.inr h3))
        · exact Or.inl (Or.inr h4)
        · exact Or.inr h5
      simp only [getSchemeAux, ha, if_false, hd, if_true, Bool.false_eq_true]
      rw [ih hs.2 (acc ++ [c]) r]
      simp


theorem not_contains_of_all {p : Char → Bool} {l : Chars} {x : Char}
    (hall : l.all p = true) (hx : ∀ c, p c = true → c ≠ x) :
    l.contains x = false := by
  induction l with
  | nil => rfl
  | cons c cs ih =>
    simp only [List.all_cons, Bool.and_eq_true] at hall
    simp only [List.contains_cons, Bool.or_eq_false_iff, beq_eq_false_iff_ne, ne_eq]
    exact ⟨fun hh => hx c hall.1 hh.symm, ih hall.2⟩

theorem schemeContChar_false {c : Char} (h : schemeContChar c = false) :
    c.isAlpha = false ∧ (c.isDigit || c == '+' || c == '-' || c == '.') = false := by
  unfold schemeContChar at h
  simp only [Bool.or_eq_false_iff] at h
  refine ⟨h.1.1.1.1, ?_⟩
  simp only [Bool.or_eq_false_iff]
  exact ⟨⟨⟨h.1.1.1.2, h.1.1.2⟩, h.1.2⟩, h.2⟩

theorem getSchemeAux_noScheme {l : Chars}
    (h : (l.dropWhile schemeContChar).head? ≠ some ':') :
    ∀ (first : Bool) (acc : Chars), getSchemeAux first acc l = .noScheme := by
  induction l with
  | nil => intro first acc; rfl
  | cons c cs ih =>
    intro first acc
    by_cases hcont : schemeContChar c = true
    · rw [List.dropWhile_cons_of_pos hcont] at h
      have hrec := ih h
      unfold schemeContChar at hcont
      simp only [Bool.or_eq_true] at hcont
      by_cases ha : c.isAlpha = true
      · simp only [getSchemeAux, ha, if_true]
        exact hrec false (acc ++ [c])
      · have hd : (c.isDigit || c == '+' || c == '-' || c == '.') = true := by
          simp only [Bool.or_eq_true]
          rcases hcont with ((((h1 | h2) | h3) | h4) | h5)
          · exact absurd h1 ha
          · exact Or.inl (Or.inl (Or.inl h2))
          · exact Or.inl (Or.inl (Or.inr h3))
          · exact Or.inl (Or.inr h4)
          · exact Or.inr h5
        simp only [getSchemeAux, ha, Bool.false_eq_true, if_false, hd, if_true]
        cases first
        · simp only [Bool.false_eq_true, if_false]
          exact hrec false (acc ++ [c])
        · simp
    · rw [List.dropWhile_cons_of_neg (by simpa using hcont)] at h
      simp only [List.head?_cons, ne_eq, Option.some.injEq] at h
      have hcf := schemeContChar_false (by simpa using hcont)
      simp [getSchemeAux, hcf.1, hcf.2, h]

theorem dropWhile_head_colon {l : Chars}
    (h : (l.dropWhile schemeContChar).head? = some ':') :
    (firstSegment l).contains ':' = true := by
  induction l with
  | nil => simp at h
  | cons c cs ih =>
    by_cases hcont : schemeContChar c = true
    · rw [List.dropWhile_cons_of_pos hcont] at h
      have hslash : ¬ c = '/' := by
        intro hh; subst hh; exact absurd hcont (by decide)
      rw [firstSegment_cons, if_neg hslash]
      simp only [List.contains_cons, Bool.or_eq_true]
      exact Or.inr (ih h)
    · rw [List.dropWhile_cons_of_neg (by simpa using hcont)] at h
      simp only [List.head?_cons, Option.some.injEq] at h
      subst h
      rw [firstSegment_cons, if_neg (by decide)]
      simp

/-! ## Parse inversion lemmas -/

theorem contains_append {a b : Chars} {x : Char} :
    (a ++ b).contains x = (a.contains x || b.contains x) := by
  simp [List.contains_eq_any_beq]

theorem all_dropLast {p : Char → Bool} {l : Chars} (h : l.all p = true) :
    l.dropLast.all p = true := by
  rw [List.all_eq_true] at h ⊢
  exact fun c hc => h c (List.dropLast_subset l hc)

theorem contains_dropLast {l : Chars} {x : Char} (h : l.contains x = false) :
    l.dropLast.contains x = false := by
  rw [List.contains_eq_any_beq, List.any_eq_false] at h ⊢
  exact fun c hc => h c (List.dropLast_subset l hc)

theorem all_pathChar {l : Chars} (h1 : l.all urlChar = true)
    (h2 : l.contains '?' = false) (h3 : l.contains '#' = false) :
    l.all pathChar = true := by
  rw [List.all_eq_true] at h1 ⊢
  rw [List.contains_eq_any_beq, List.any_eq_false] at h2 h3
  intro c hc
  have hq := h2 c hc
  have hh := h3 c hc
  simp only [beq_iff_eq] at hq hh
  unfold pathChar
  simp only [Bool.and_eq_true, decide_eq_true_eq, ne_eq]
  exact ⟨⟨h1 c hc, fun hcc => hq hcc.symm⟩, fun hcc => hh hcc.symm⟩

theorem all_queryChar {l : Chars} (h1 : l.all urlChar = true)
    (h3 : l.contains '#' = false) : l.all queryChar = true := by
  rw [List.all_eq_true] at h1 ⊢
  rw [List.contains_eq_any_beq, List.any_eq_false] at h3
  intro c hc
  have hh := h3 c hc
  simp only [beq_iff_eq] at hh
  unfold queryChar
  simp only [Bool.and_eq_true, decide_eq_true_eq, ne_eq]
  exact ⟨h1 c hc, fun hcc => hh hcc.symm⟩

theorem splitQuery_spec {l a b : Chars} {fq : Bool}
    (h : splitQuery l = (a, fq, b)) :
    a.contains '?' = false ∧
    (∀ p : Char → Bool, l.all p = true → a.all p = true ∧ b.all p = true) ∧
    (∀ x : Char, l.contains x = false → a.contains x = false ∧ b.contains x = false) := by
  unfold splitQuery at h
  split at h
  · simp only [Prod.mk.injEq] at h
    obtain ⟨ha, -, hb⟩ := h
    subst ha; subst hb
    rename_i hcond
    simp only [Bool.and_eq_true, beq_iff_eq, Bool.not_eq_eq_eq_not, Bool.not_true] at hcond
    refine ⟨hcond.2, fun p hp => ⟨all_dropLast hp, by simp⟩,
      fun x hx => ⟨contains_dropLast hx, by simp [List.contains_eq_any_beq]⟩⟩
  · simp only [Prod.mk.injEq] at h
    obtain ⟨ha, -, hb⟩ := h
    rcases hcut : cutChar '?' l with ⟨a1, b1, f1⟩
    rw [hcut] at ha hb
    simp only at ha hb
    subst ha; subst hb
    cases f1 with
    | true =>
      obtain ⟨hl, hfree⟩ := cutChar_found hcut
      subst hl
      refine ⟨hfree, fun p hp => ?_, fun x hx => ?_⟩
      · simp only [List.all_append, List.all_cons, Bool.and_eq_true] at hp
        exact ⟨hp.1, hp.2.2⟩
      · rw [contains_append] at hx
        simp only [Bool.or_eq_false_iff, List.contains_cons] at hx
        exact ⟨hx.1, hx.2.2⟩
    | false =>
      obtain ⟨hl, hb1, hfree⟩ := cutChar_not_found hcut
      subst hl
      exact ⟨hfree, fun p hp => ⟨hp, by simp [hb1]⟩,
        fun x hx => ⟨hx, by simp [hb1, List.contains_eq_any_beq]⟩⟩

theorem getSchemeAux_found_inv {l a b : Chars} {first : Bool} {acc : Chars}
    (h : getSchemeAux first acc l = .found a b) :
    ∃ t, a = acc ++ t ∧ l = t ++ ':' :: b ∧ t.all schemeContChar = true ∧
      (first = true → ∃ c cs, t = c :: cs ∧ c.isAlpha = true) := by
  induction l generalizing first acc with
  | nil => simp [getSchemeAux] at h
  | cons c cs ih =>
    by_cases ha : c.isAlpha = true
    · simp only [getSchemeAux, ha, if_true] at h
      obtain ⟨t, ht1, ht2, ht3, -⟩ := ih h
      refine ⟨c :: t, by simp [ht1], by simp [ht2], ?_, ?_⟩
      · simp only [List.all_cons, Bool.and_eq_true]
        exact ⟨by unfold schemeContChar; simp [ha], ht3⟩
      · intro _; exact ⟨c, t, rfl, ha⟩
    · by_cases hd : (c.isDigit || c == '+' || c == '-' || c == '.') = true
      · simp only [getSchemeAux, ha, Bool.false_eq_true, if_false, hd, if_true] at h
        cases first with
        | true => simp at h
        | false =>
          simp only [Bool.false_eq_true, if_false] at h
          obtain ⟨t, ht1, ht2, ht3, -⟩ := ih h
          refine ⟨c :: t, by simp [ht1], by simp [ht2], ?_, by simp⟩
          simp only [List.all_cons, Bool.and_eq_true]
          refine ⟨?_, ht3⟩
          unfold schemeContChar
          simp only [Bool.or_eq_true] at hd ⊢
          rcases hd with ((h1 | h2) | h3) | h4
          · exact Or.inl (Or.inl (Or.inl (Or.inr h1)))
          · exact Or.inl (Or.inl (Or.inr h2))
          · exact Or.inl (Or.inr h3)
          · exact Or.inr h4
      · by_cases hc : c = ':'
        · subst hc
          simp only [getSchemeAux] at h
          rw [if_neg (by decide), if_neg (by decide), if_pos (by decide)] at h
          cases first with
          | true => simp at h
          | false =>
            simp only [Bool.false_eq_true, if_false, SchemeRes.found.injEq] at h
            exact ⟨[], by simp [h.1.symm], by simp [h.2.symm], rfl, by simp⟩
        · simp only [getSchemeAux] at h
          rw [if_neg ha, if_neg hd,
            if_neg (show ¬((c == ':') = true) by simpa using hc)] at h
          simp at h

theorem parseHostL_hostOK {a h : Chars} (hp : parseHostL a = some h) :
    h = a ∧ hostOKL a = true := by
  unfold parseHostL at hp
  unfold hostOKL
  rcases hcut : cutChar ':' a with ⟨hn, p, f⟩
  rw [hcut] at hp
  cases f with
  | true =>
    simp only at hp
    split at hp
    · simp only [Option.some.injEq] at hp
      rename_i hcond
      exact ⟨hp.symm, by simp [hcond]⟩
    · simp at hp
  | false =>
    simp only at hp
    split at hp
    · simp only [Option.some.injEq] at hp
      rename_i hcond
      exact ⟨hp.symm, by simp [hcond]⟩
    · simp at hp

theorem wfURL_iff {u : GoURL} : wfURL u = true ↔
    (schemeOKL u.scheme = true ∧
     u.opq.all pathChar = true ∧
     (u.opq = [] ∨ (u.scheme ≠ [] ∧ u.opq.head? ≠ some '/' ∧ u.host = [] ∧
        (u.path = [] ∨ u.path = ['/']))) ∧
     hostOKL u.host = true ∧
     u.path.all pathChar = true ∧
     u.rawQuery.all queryChar = true ∧
     u.fragment.all urlChar = true ∧
     ((u.scheme ≠ [] ∨ u.host ≠ []) → (u.path = [] ∨ u.path.head? = some '/')) ∧
     ((u.scheme = [] ∧ u.host = [] ∧ u.path.head? ≠ some '/') →
        (firstSegment u.path).contains ':' = false) ∧
     ((u.scheme = [] ∧ u.host = [] ∧ u.path.take 2 = ['/', '/']) →
        u.path.take 3 = ['/', '/', '/'])) := by
  unfold wfURL
  simp only [Bool.and_eq_true, Bool.or_eq_true, Bool.not_eq_eq_eq_not, Bool.not_true,
    Bool.and_eq_false_iff, Bool.or_eq_false_iff, decide_eq_true_eq, decide_eq_false_iff_not,
    ne_eq, Bool.not_eq_true]
  constructor
  · rintro ⟨⟨⟨⟨⟨⟨⟨⟨⟨hS, h2⟩, h3⟩, h4⟩, h5⟩, h6⟩, h7⟩, h8⟩, h9⟩, h10⟩
    refine ⟨hS, h2, ?_, h4, h5, h6, h7, ?_, ?_, ?_⟩
    · rcases h3 with h | ⟨⟨⟨a, b⟩, c⟩, d⟩
      · exact Or.inl h
      · exact Or.inr ⟨a, b, c, d⟩
    · intro hyp
      rcases h8 with (⟨hs0, hh0⟩ | hp) | hhead
      · rcases hyp with hy | hy
        · exact absurd (not_not.1 hs0) hy
        · exact absurd (not_not.1 hh0) hy
      · exact Or.inl hp
      · exact Or.inr hhead
    · rintro ⟨hs, hh, hp⟩
      rcases h9 with (hx | hx) | hx
      · rcases hx with hx | hx
        · exact absurd hs hx
        · exact absurd hh hx
      · exact absurd (not_not.1 hx) hp
      · exact hx
    · rintro ⟨hs, hh, hp⟩
      rcases h10 with (hx | hx) | hx
      · rcases hx with hx | hx
        · exact absurd hs hx
        · exact absurd hh hx
      · exact absurd hp hx
      · exact hx
  · rintro ⟨hS, h2, h3, h4, h5, h6, h7, h8, h9, h10⟩
    refine ⟨⟨⟨⟨⟨⟨⟨⟨⟨hS, h2⟩, ?_⟩, h4⟩, h5⟩, h6⟩, h7⟩, ?_⟩, ?_⟩, ?_⟩
    · rcases h3 with h | ⟨a, b, c, d⟩
      · exact Or.inl h
      · exact Or.inr ⟨⟨⟨a, b⟩, c⟩, d⟩
    · by_cases hs : u.scheme = []
      · by_cases hh : u.host = []
        · exact Or.inl (Or.inl ⟨not_not.2 hs, not_not.2 hh⟩)
        · rcases h8 (Or.inr hh) with hp | hp
          · exact Or.inl (Or.inr hp)
          · exact Or.inr hp
      · rcases h8 (Or.inl hs) with hp | hp
        · exact Or.inl (Or.inr hp)
        · exact Or.inr hp
    · by_cases hs : u.scheme = []
      · by_cases hh : u.host = []
        · by_cases hp : u.path.head? = some '/'
          · exact Or.inl (Or.inr (not_not.2 hp))
          · exact Or.inr (h9 ⟨hs, hh, hp⟩)
        · exact Or.inl (Or.inl (Or.inr hh))
      · exact Or.inl (Or.inl (Or.inl hs))
    · by_cases hs : u.scheme = []
      · by_cases hh : u.host = []
        · by_cases hp : u.path.take 2 = ['/', '/']
          · exact Or.inr (h10 ⟨hs, hh, hp⟩)
          · exact Or.inl (Or.inr hp)
        · exact Or.inl (Or.inl (Or.inr hh))
      · exact Or.inl (Or.inl (Or.inl hs))
theorem take2_shape {l : Chars} (h : l.take 2 = ['/', '/']) :
    l = '/' :: '/' :: l.drop 2 := by
  cases l with
  | nil => simp at h
  | cons a l1 =>
    cases l1 with
    | nil => simp [List.take] at h
    | cons b l2 =>
      simp only [List.take, List.cons.injEq] at h
      obtain ⟨rfl, rfl, -⟩ := by simpa using h
      rfl

theorem all_drop {p : Char → Bool} {l : Chars} (n : Nat) (h : l.all p = true) :
    (l.drop n).all p = true := by
  rw [List.all_eq_true] at h ⊢
  exact fun c hc => h c (List.drop_subset n l hc)

theorem hostOK_nil : hostOKL [] = true := by decide

theorem parseCore_wf {scheme rest1 : Chars} {fq : Bool} {rq : Chars} {u : GoURL}
    (hS : schemeOKL scheme = true)
    (h1 : rest1.all pathChar = true)
    (hq : rq.all queryChar = true)
    (h : parseCore scheme rest1 fq rq = some u) :
    wfURL u = true ∧ u.fragment = [] := by
  unfold parseCore at h
  split at h
  · rename_i hslash
    split at h
    · rename_i hsch
      simp only [Option.some.injEq] at h
      subst h
      refine ⟨wfURL_iff.2 ?_, rfl⟩
      dsimp only
      refine ⟨hS, h1, Or.inr ⟨hsch, hslash, rfl, Or.inl rfl⟩, hostOK_nil, by simp, hq,
        by simp, fun _ => Or.inl rfl, ?_, by simp⟩
      intro hx
      simp [firstSegment, cutChar]
    · split at h
      · simp at h
      · rename_i hsch hcolon
        simp only [Option.some.injEq] at h
        subst h
        refine ⟨wfURL_iff.2 ?_, rfl⟩
        simp only [ne_eq, not_not] at hsch
        dsimp only
        refine ⟨by simpa [hsch] using hS, by simp, Or.inl rfl, hostOK_nil, h1,
          hq, by simp, ?_, ?_, ?_⟩
        · rintro (hx | hx) <;> simp at hx
        · intro hx
          simpa [firstSegment] using hcolon
        · rintro ⟨-, -, htake⟩
          exact absurd (by rw [take2_shape htake]; simp) hslash
  · rename_i hslash
    split at h
    · rename_i hcond
      rcases hcut : cutChar '/' (rest1.drop 2) with ⟨auth, after, f⟩
      simp only [hcut] at h
      rcases hph : parseHostL auth with - | host
      · rw [hph] at h
        simp at h
      · rw [hph] at h
        simp only [Option.some.injEq] at h
        subst h
        obtain ⟨rfl, hOK⟩ := parseHostL_hostOK hph
        simp only [Bool.and_eq_true, Bool.or_eq_true, decide_eq_true_eq] at hcond
        have htk2 : rest1.take 2 = ['/', '/'] := hcond.2
        have hrest1 : rest1 = '/' :: '/' :: rest1.drop 2 := take2_shape htk2
        have hdropall : (rest1.drop 2).all pathChar = true := all_drop 2 h1
        refine ⟨wfURL_iff.2 ?_, rfl⟩
        dsimp only
        refine ⟨hS, by simp, Or.inl rfl, hOK, ?_, hq, by simp, ?_, ?_, ?_⟩
        · cases f with
          | true =>
            obtain ⟨hd, -⟩ := cutChar_found hcut
            rw [hd] at hdropall
            simp only [List.all_append, List.all_cons, Bool.and_eq_true] at hdropall
            rw [if_pos rfl]
            simp only [List.all_cons, Bool.and_eq_true]
            exact ⟨by decide, hdropall.2.2⟩
          | false => simp
        · intro hx
          cases f with
          | true => exact Or.inr (by simp)
          | false => exact Or.inl (by simp)
        · rintro ⟨hs, hh, hp⟩
          cases f with
          | true => exact absurd rfl hp
          | false => simp [firstSegment, cutChar]
        · rintro ⟨hs, hh, htake⟩
          exfalso
          cases f with
          | true =>
            obtain ⟨hd, -⟩ := cutChar_found hcut
            rw [hh] at hd
            simp only [List.nil_append] at hd
            have h3 : rest1.take 3 = ['/', '/', '/'] := by
              conv_lhs => rw [hrest1, hd]
              rfl
            rcases hcond.1 with hA | hB
            · exact hA hs
            · exact hB h3
          | false => simp at htake
    · rename_i hcond
      simp only [Option.some.injEq] at h
      subst h
      simp only [ne_eq, not_not] at hslash
      refine ⟨wfURL_iff.2 ?_, rfl⟩
      dsimp only
      refine ⟨hS, by simp, Or.inl rfl, hostOK_nil, h1, hq, by simp, ?_, ?_, ?_⟩
      · intro hx
        exact Or.inr hslash
      · rintro ⟨-, -, hp⟩
        exact absurd hslash hp
      · rintro ⟨hs, -, htake⟩
        by_contra h3
        apply hcond
        simp only [Bool.and_eq_true, Bool.or_eq_true, decide_eq_true_eq]
        exact ⟨Or.inr (by simpa using h3), htake⟩

/-! ## Scheme lowering and parse range lemmas -/

theorem toLower_lowerAlpha_of_alpha {c : Char} (h : c.isAlpha = true) :
    lowerAlpha c.toLower = true := by
  unfold Char.isAlpha at h
  simp only [Bool.or_eq_true] at h
  unfold lowerAlpha
  simp only [Bool.and_eq_true, decide_eq_true_eq]
  rcases h with h | h
  · rw [isUpper_iff] at h
    have := toLower_toNat_of_upper h.1 h.2
    omega
  · rw [isLower_iff] at h
    rw [toLower_eq_self (by omega)]
    omega

theorem toLower_schemeChar {c : Char} (h : schemeContChar c = true) :
    (lowerAlpha c.toLower || c.toLower.isDigit || c.toLower == '+' ||
      c.toLower == '-' || c.toLower == '.') = true := by
  unfold schemeContChar at h
  simp only [Bool.or_eq_true] at h ⊢
  rcases h with ((((h1 | h2) | h3) | h4) | h5)
  · exact Or.inl (Or.inl (Or.inl (Or.inl (toLower_lowerAlpha_of_alpha h1))))
  · rw [isDigit_iff] at h2
    rw [show c.toLower = c from toLower_eq_self (by omega)]
    refine Or.inl (Or.inl (Or.inl (Or.inr ?_)))
    rw [isDigit_iff]
    omega
  · rw [beq_iff_eq] at h3
    subst h3
    exact Or.inl (Or.inl (Or.inr (by decide)))
  · rw [beq_iff_eq] at h4
    subst h4
    exact Or.inl (Or.inr (by decide))
  · rw [beq_iff_eq] at h5
    subst h5
    exact Or.inr (by decide)

theorem schemeOK_map_toLower {c : Char} {cs : Chars} (hc : c.isAlpha = true)
    (hall : (c :: cs).all schemeContChar = true) :
    schemeOKL ((c :: cs).map Char.toLower) = true := by
  simp only [List.map_cons]
  unfold schemeOKL
  simp only [List.all_cons, Bool.and_eq_true] at hall ⊢
  refine ⟨toLower_lowerAlpha_of_alpha hc, ?_⟩
  rw [List.all_map]
  rw [List.all_eq_true] at hall ⊢
  intro x hx
  exact toLower_schemeChar (hall.2 x hx)

theorem wf_setFragment {u0 : GoURL} {frag : Chars} (hw : wfURL u0 = true)
    (hf : frag.all urlChar = true) : wfURL { u0 with fragment := frag } = true := by
  rw [wfURL_iff] at hw
  rw [wfURL_iff]
  obtain ⟨a1, a2, a3, a4, a5, a6, a7, a8, a9, a10⟩ := hw
  exact ⟨a1, a2, a3, a4, a5, a6, hf, a8, a9, a10⟩

theorem contains_append_false {a b : Chars} {x : Char}
    (h : (a ++ b).contains x = false) :
    a.contains x = false ∧ b.contains x = false := by
  rw [contains_append, Bool.or_eq_false_iff] at h
  exact h

theorem parse_wf {s : Chars} {u : GoURL} (h : parseL s = some u) : wfURL u = true := by
  unfold parseL at h
  split at h
  case isFalse => simp at h
  rename_i hall
  rcases hfc : cutChar '#' s with ⟨rest0, frag, ff⟩
  simp only [hfc] at h
  have hrest0 : rest0.all urlChar = true ∧ rest0.contains '#' = false ∧
      frag.all urlChar = true := by
    cases ff with
    | true =>
      obtain ⟨hs, hfree⟩ := cutChar_found hfc
      subst hs
      simp only [List.all_append, List.all_cons, Bool.and_eq_true] at hall
      exact ⟨hall.1, hfree, hall.2.2⟩
    | false =>
      obtain ⟨ha, hb, hfree⟩ := cutChar_not_found hfc
      subst ha
      exact ⟨hall, hfree, by simp [hb]⟩
  cases hgs : getSchemeAux true [] rest0 with
  | err =>
    simp only [hgs] at h
    simp at h
  | noScheme =>
    simp only [hgs] at h
    rcases hsq : splitQuery rest0 with ⟨rest1, fq, rq⟩
    simp only [hsq] at h
    obtain ⟨hq1, hq2, hq3⟩ := splitQuery_spec hsq
    have hr1all : rest1.all urlChar = true := (hq2 urlChar hrest0.1).1
    have hrqall : rq.all urlChar = true := (hq2 urlChar hrest0.1).2
    have hr1hash : rest1.contains '#' = false := (hq3 '#' hrest0.2.1).1
    have hrqhash : rq.contains '#' = false := (hq3 '#' hrest0.2.1).2
    rcases hpc : parseCore [] rest1 fq rq with - | u0
    · simp only [hpc] at h
      simp at h
    · simp only [hpc] at h
      simp only [Option.some.injEq] at h
      subst h
      have hwf0 := parseCore_wf (by decide) (all_pathChar hr1all hq1 hr1hash)
        (all_queryChar hrqall hrqhash) hpc
      cases ff with
      | true => exact wf_setFragment hwf0.1 hrest0.2.2
      | false =>
        simpa using hwf0.1
  | found sch rest =>
    simp only [hgs] at h
    obtain ⟨t, ht1, ht2, ht3, ht4⟩ := getSchemeAux_found_inv hgs
    simp only [List.nil_append] at ht1
    subst ht1
    obtain ⟨c0, cs0, ht5, hc0⟩ := ht4 rfl
    have hrest : rest.all urlChar = true ∧ rest.contains '#' = false := by
      rw [ht2] at hrest0
      obtain ⟨hA, hB, -⟩ := hrest0
      simp only [List.all_append, List.all_cons, Bool.and_eq_true] at hA
      obtain ⟨-, hB2⟩ := contains_append_false hB
      simp only [List.contains_cons, Bool.or_eq_false_iff] at hB2
      exact ⟨hA.2.2, hB2.2⟩
    rcases hsq : splitQuery rest with ⟨rest1, fq, rq⟩
    simp only [hsq] at h
    obtain ⟨hq1, hq2, hq3⟩ := splitQuery_spec hsq
    have hr1all : rest1.all urlChar = true := (hq2 urlChar hrest.1).1
    have hrqall : rq.all urlChar = true := (hq2 urlChar hrest.1).2
    have hr1hash : rest1.contains '#' = false := (hq3 '#' hrest.2).1
    have hrqhash : rq.contains '#' = false := (hq3 '#' hrest.2).2
    rcases hpc : parseCore (sch.map Char.toLower) rest1 fq rq with - | u0
    · simp only [hpc] at h
      simp at h
    · simp only [hpc] at h
      simp only [Option.some.injEq] at h
      subst h
      have hS : schemeOKL (sch.map Char.toLower) = true := by
        rw [ht5]
        exact schemeOK_map_toLower hc0 (ht5 ▸ ht3)
      have hwf0 := parseCore_wf hS (all_pathChar hr1all hq1 hr1hash)
        (all_queryChar hrqall hrqhash) hpc
      cases ff with
      | true => exact wf_setFragment hwf0.1 hrest0.2.2
      | false =>
        simpa using hwf0.1
theorem splitQuery_fq {l a b : Chars} (h : splitQuery l = (a, true, b)) : b = [] := by
  unfold splitQuery at h
  split at h
  · simp only [Prod.mk.injEq] at h
    exact h.2.2.symm
  · simp only [Prod.mk.injEq] at h
    exact absurd h.2.1.symm (by simp)

theorem parseCore_fq {scheme rest1 : Chars} {fq : Bool} {rq : Chars} {u : GoURL}
    (h : parseCore scheme rest1 fq rq = some u) :
    u.forceQuery = fq ∧ u.rawQuery = rq := by
  unfold parseCore at h
  split at h
  · split at h
    · simp only [Option.some.injEq] at h
      subst h
      exact ⟨rfl, rfl⟩
    · split at h
      · simp at h
      · simp only [Option.some.injEq] at h
        subst h
        exact ⟨rfl, rfl⟩
  · split at h
    · rcases hcut : cutChar '/' (rest1.drop 2) with ⟨auth, after, f⟩
      simp only [hcut] at h
      rcases hph : parseHostL auth with - | host
      · rw [hph] at h
        simp at h
      · rw [hph] at h
        simp only [Option.some.injEq] at h
        subst h
        exact ⟨rfl, rfl⟩
    · simp only [Option.some.injEq] at h
      subst h
      exact ⟨rfl, rfl⟩

theorem parse_fq {s : Chars} {u : GoURL} (h : parseL s = some u) :
    u.forceQuery = true → u.rawQuery = [] := by
  unfold parseL at h
  split at h
  case isFalse => simp at h
  rename_i hall
  rcases hfc : cutChar '#' s with ⟨rest0, frag, ff⟩
  simp only [hfc] at h
  cases hgs : getSchemeAux true [] rest0 with
  | err =>
    simp only [hgs] at h
    simp at h
  | noScheme =>
    simp only [hgs] at h
    rcases hsq : splitQuery rest0 with ⟨rest1, fq, rq⟩
    simp only [hsq] at h
    rcases hpc : parseCore [] rest1 fq rq with - | u0
    · simp only [hpc] at h
      simp at h
    · simp only [hpc] at h
      simp only [Option.some.injEq] at h
      subst h
      obtain ⟨hf, hr⟩ := parseCore_fq hpc
      cases ff with
      | true =>
        intro hfq
        simp only at hfq ⊢
        rw [hr]
        cases fq with
        | true => exact splitQuery_fq hsq
        | false => rw [hf] at hfq; simp at hfq
      | false =>
        simp only [Bool.false_eq_true, if_false]
        intro hfq
        rw [hr]
        cases fq with
        | true => exact splitQuery_fq hsq
        | false => rw [hf] at hfq; simp at hfq
  | found sch rest =>
    simp only [hgs] at h
    rcases hsq : splitQuery rest with ⟨rest1, fq, rq⟩
    simp only [hsq] at h
    rcases hpc : parseCore (sch.map Char.toLower) rest1 fq rq with - | u0
    · simp only [hpc] at h
      simp at h
    · simp only [hpc] at h
      simp only [Option.some.injEq] at h
      subst h
      obtain ⟨hf, hr⟩ := parseCore_fq hpc
      cases ff with
      | true =>
        intro hfq
        simp only at hfq ⊢
        rw [hr]
        cases fq with
        | true => exact splitQuery_fq hsq
        | false => rw [hf] at hfq; simp at hfq
      | false =>
        simp only [Bool.false_eq_true, if_false]
        intro hfq
        rw [hr]
        cases fq with
        | true => exact splitQuery_fq hsq
        | false => rw [hf] at hfq; simp at hfq

/-! ## Character class lemmas for serialisation -/

theorem lowerAlpha_urlChar {c : Char} (h : lowerAlpha c = true) : urlChar c = true := by
  unfold lowerAlpha at h
  simp only [Bool.and_eq_true, decide_eq_true_eq] at h
  have ha : c.isAlphanum = true := by
    simp only [Char.isAlphanum, Char.isAlpha, Bool.or_eq_true]
    exact Or.inl (Or.inr (isLower_iff.2 ⟨h.1, h.2⟩))
  simp [urlChar, ha]

theorem digit_urlChar {c : Char} (h : c.isDigit = true) : urlChar c = true := by
  have ha : c.isAlphanum = true := by simp [Char.isAlphanum, h]
  simp [urlChar, ha]

theorem hostChar_urlChar {c : Char} (h : hostChar c = true) : urlChar c = true := by
  unfold hostChar at h
  simp only [Bool.or_eq_true] at h
  rcases h with (((ha | hb) | hc) | hd) | he
  · simp [urlChar, ha]
  · rw [beq_iff_eq] at hb; subst hb; decide
  · rw [beq_iff_eq] at hc; subst hc; decide
  · rw [beq_iff_eq] at hd; subst hd; decide
  · rw [beq_iff_eq] at he; subst he; decide

theorem pathChar_urlChar {c : Char} (h : pathChar c = true) : urlChar c = true := by
  unfold pathChar at h
  simp only [Bool.and_eq_true] at h
  exact h.1.1

theorem queryChar_urlChar {c : Char} (h : queryChar c = true) : urlChar c = true := by
  unfold queryChar at h
  simp only [Bool.and_eq_true] at h
  exact h.1

theorem schemeOK_all {s : Chars} (h : schemeOKL s = true) :
    s.all (fun c => lowerAlpha c || c.isDigit || c == '+' || c == '-' || c == '.') = true := by
  cases s with
  | nil => rfl
  | cons c cs =>
    unfold schemeOKL at h
    simp only [Bool.and_eq_true] at h
    simp only [List.all_cons, Bool.and_eq_true]
    refine ⟨?_, h.2⟩
    simp [h.1]

theorem schemeAll_urlChar {c : Char}
    (h : (lowerAlpha c || c.isDigit || c == '+' || c == '-' || c == '.') = true) :
    urlChar c = true := by
  simp only [Bool.or_eq_true] at h
  rcases h with ((((h1 | h2) | h3) | h4) | h5)
  · exact lowerAlpha_urlChar h1
  · exact digit_urlChar h2
  · rw [beq_iff_eq] at h3; subst h3; decide
  · rw [beq_iff_eq] at h4; subst h4; decide
  · rw [beq_iff_eq] at h5; subst h5; decide

theorem schemeAll_cont {c : Char}
    (h : (lowerAlpha c || c.isDigit || c == '+' || c == '-' || c == '.') = true) :
    schemeContChar c = true := by
  unfold schemeContChar
  simp only [Bool.or_eq_true] at h ⊢
  rcases h with ((((h1 | h2) | h3) | h4) | h5)
  · refine Or.inl (Or.inl (Or.inl (Or.inl ?_)))
    unfold lowerAlpha at h1
    simp only [Bool.and_eq_true, decide_eq_true_eq] at h1
    simp only [Char.isAlpha, Bool.or_eq_true]
    exact Or.inr (isLower_iff.2 ⟨h1.1, h1.2⟩)
  · exact Or.inl (Or.inl (Or.inl (Or.inr h2)))
  · exact Or.inl (Or.inl (Or.inr h3))
  · exact Or.inl (Or.inr h4)
  · exact Or.inr h5

theorem schemeOK_cont {s : Chars} (h : schemeOKL s = true) :
    s.all schemeContChar = true := by
  have h2 := schemeOK_all h
  rw [List.all_eq_true] at h2 ⊢
  exact fun c hc => schemeAll_cont (h2 c hc)

theorem schemeAll_toLower_fix {c : Char}
    (h : (lowerAlpha c || c.isDigit || c == '+' || c == '-' || c == '.') = true) :
    c.toLower = c := by
  simp only [Bool.or_eq_true] at h
  rcases h with ((((h1 | h2) | h3) | h4) | h5)
  · exact toLower_of_lowerAlpha h1
  · exact toLower_of_isDigit h2
  · rw [beq_iff_eq] at h3; subst h3; decide
  · rw [beq_iff_eq] at h4; subst h4; decide
  · rw [beq_iff_eq] at h5; subst h5; decide

theorem schemeOK_lower_fix {s : Chars} (h : schemeOKL s = true) :
    s.map Char.toLower = s := by
  have h2 := schemeOK_all h
  rw [List.all_eq_true] at h2
  calc s.map Char.toLower = s.map id :=
        List.map_congr_left (fun c hc => schemeAll_toLower_fix (h2 c hc))
    _ = s := List.map_id s

theorem hostOK_all {h : Chars} (hh : hostOKL h = true) :
    h.all (fun c => hostChar c || c.isDigit || c == ':') = true := by
  unfold hostOKL at hh
  rcases hcut : cutChar ':' h with ⟨hn, p, f⟩
  rw [hcut] at hh
  cases f with
  | true =>
    dsimp only at hh
    simp only [Bool.and_eq_true] at hh
    obtain ⟨hd, -⟩ := cutChar_found hcut
    subst hd
    simp only [List.all_append, List.all_cons, Bool.and_eq_true]
    refine ⟨?_, by decide, ?_⟩
    · rw [List.all_eq_true] at hh ⊢
      exact fun c hc => by simp [hh.1 c hc]
    · have := hh.2
      rw [List.all_eq_true] at this ⊢
      exact fun c hc => by simp [this c hc]
  | false =>
    obtain ⟨ha, -, -⟩ := cutChar_not_found hcut
    subst ha
    dsimp only at hh
    rw [List.all_eq_true] at hh ⊢
    exact fun c hc => by simp [hh c hc]

theorem hostOK_parseHost {h : Chars} (hh : hostOKL h = true) :
    parseHostL h = some h := by
  unfold hostOKL at hh
  unfold parseHostL
  rcases hcut : cutChar ':' h with ⟨hn, p, f⟩
  rw [hcut] at hh
  cases f with
  | true =>
    dsimp only at hh
    dsimp only
    rw [if_pos hh]
  | false =>
    dsimp only at hh
    dsimp only
    rw [if_pos hh]
theorem not_contains_of_all_char {p : Char → Bool} {l : Chars} {x : Char}
    (hall : l.all p = true) (hp : p x = false) : l.contains x = false := by
  refine not_contains_of_all hall (fun c hc he => ?_)
  rw [he] at hc
  rw [hc] at hp
  exact absurd hp (by simp)

theorem parseL_eval_noScheme {s rest0 frag : Chars} {ff : Bool} {u0 : GoURL}
    (hall : s.all urlChar = true)
    (hfc : cutChar '#' s = (rest0, frag, ff))
    (hgs : getSchemeAux true [] rest0 = .noScheme)
    (hpc : parseCore [] (splitQuery rest0).1 (splitQuery rest0).2.1 (splitQuery rest0).2.2
            = some u0) :
    parseL s = some (if ff then { u0 with fragment := frag } else u0) := by
  unfold parseL
  rw [if_pos hall]
  simp only [hfc, hgs, hpc]

theorem parseL_eval_found {s rest0 frag sch rest : Chars} {ff : Bool} {u0 : GoURL}
    (hall : s.all urlChar = true)
    (hfc : cutChar '#' s = (rest0, frag, ff))
    (hgs : getSchemeAux true [] rest0 = .found sch rest)
    (hpc : parseCore (sch.map Char.toLower) (splitQuery rest).1 (splitQuery rest).2.1
            (splitQuery rest).2.2 = some u0) :
    parseL s = some (if ff then { u0 with fragment := frag } else u0) := by
  unfold parseL
  rw [if_pos hall]
  simp only [hfc, hgs, hpc]



theorem getScheme_eval {s rest : Chars} (hOK : schemeOKL s = true) (hne : s ≠ []) :
    getSchemeAux true [] (s ++ ':' :: rest) = .found s rest := by
  cases s with
  | nil => exact absurd rfl hne
  | cons c cs =>
    unfold schemeOKL at hOK
    simp only [Bool.and_eq_true] at hOK
    have halpha : c.isAlpha = true := by
      unfold lowerAlpha at hOK
      simp only [Bool.and_eq_true, decide_eq_true_eq] at hOK
      simp only [Char.isAlpha, Bool.or_eq_true]
      exact Or.inr (isLower_iff.2 ⟨hOK.1.1, hOK.1.2⟩)
    rw [List.cons_append]
    simp only [getSchemeAux, halpha, if_true]
    have hcont : cs.all schemeContChar = true := by
      rw [List.all_eq_true] at hOK ⊢
      exact fun x hx => schemeAll_cont (hOK.2 x hx)
    rw [getSchemeAux_cont hcont]
    simp

theorem splitQuery_eval {body rq : Chars} {fq : Bool}
    (hbody : body.contains '?' = false)
    (hfq : fq = true → rq = []) :
    splitQuery (body ++ (if fq ∨ rq ≠ [] then '?' :: rq else [])) = (body, fq, rq) := by
  by_cases hq : fq ∨ rq ≠ []
  · rw [if_pos hq]
    cases fq with
    | true =>
      rw [hfq rfl]
      exact splitQuery_force hbody
    | false =>
      have hrq : rq ≠ [] := by
        rcases hq with hq | hq
        · simp at hq
        · exact hq
      exact splitQuery_query hbody hrq
  · rw [if_neg hq]
    push_neg at hq
    simp only [ne_eq, not_not] at hq
    have hfq0 : fq = false := by
      cases fq
      · rfl
      · exact absurd (rfl : true = true) hq.1
    rw [List.append_nil, hfq0, hq.2]
    exact splitQuery_no_query hbody



theorem parse_urlString_opaque {sc op ho pa : Chars} {fqF : Bool} {rqF frF : Chars}
    (hw : wfURL ⟨sc, op, ho, pa, fqF, rqF, frF⟩ = true)
    (hfq : fqF = true → rqF = [])
    (hop : op ≠ []) :
    parseL (urlStringL ⟨sc, op, ho, pa, fqF, rqF, frF⟩) =
      some (postParse ⟨sc, op, ho, pa, fqF, rqF, frF⟩) := by
  obtain ⟨hS, hOpq, hOpq3, hHost, hPath, hQuery, hFrag, h8, h9, h10⟩ := wfURL_iff.1 hw
  dsimp only at hS hOpq hOpq3 hHost hPath hQuery hFrag h8 h9 h10
  rcases hOpq3 with h | ⟨hsch, hophead, hhost, hpath⟩
  · exact absurd h hop
  subst hhost
  have hstr : urlStringL ⟨sc, op, [], pa, fqF, rqF, frF⟩ =
      (sc ++ ':' :: (op ++ (if fqF ∨ rqF ≠ [] then '?' :: rqF else []))) ++
      (if frF ≠ [] then '#' :: frF else []) := by
    unfold urlStringL
    dsimp only
    rw [if_pos (by simpa using hsch), if_pos (by simpa using hop)]
    simp [List.append_assoc]
  have hA_all : (sc ++ ':' :: (op ++ (if fqF ∨ rqF ≠ [] then '?' :: rqF else []))).all
      urlChar = true := by
    simp only [List.all_append, List.all_cons, Bool.and_eq_true]
    refine ⟨?_, by decide, ?_, ?_⟩
    · have h2 := schemeOK_all hS
      rw [List.all_eq_true] at h2 ⊢
      exact fun c hc => schemeAll_urlChar (h2 c hc)
    · rw [List.all_eq_true] at hOpq ⊢
      exact fun c hc => pathChar_urlChar (hOpq c hc)
    · split
      · simp only [List.all_cons, Bool.and_eq_true]
        refine ⟨by decide, ?_⟩
        rw [List.all_eq_true] at hQuery ⊢
        exact fun c hc => queryChar_urlChar (hQuery c hc)
      · simp
  have hall : (urlStringL ⟨sc, op, [], pa, fqF, rqF, frF⟩).all urlChar = true := by
    rw [hstr, List.all_append, Bool.and_eq_true]
    refine ⟨hA_all, ?_⟩
    split
    · simp only [List.all_cons, Bool.and_eq_true]
      exact ⟨by decide, hFrag⟩
    · simp
  have hA_hash : (sc ++ ':' :: (op ++ (if fqF ∨ rqF ≠ [] then '?' :: rqF else []))).contains
      '#' = false := by
    simp only [contains_append, List.contains_cons, Bool.or_eq_false_iff]
    refine ⟨not_contains_of_all_char (schemeOK_all hS) (by decide), ⟨by decide, ?_, ?_⟩⟩
    · exact not_contains_of_all_char hOpq (by decide)
    · split
      · simp only [List.contains_cons, Bool.or_eq_false_iff]
        exact ⟨by decide, not_contains_of_all_char hQuery (by decide)⟩
      · simp [List.contains_eq_any_beq]
  have hgs : getSchemeAux true []
      (sc ++ ':' :: (op ++ (if fqF ∨ rqF ≠ [] then '?' :: rqF else []))) =
      .found sc (op ++ (if fqF ∨ rqF ≠ [] then '?' :: rqF else [])) :=
    getScheme_eval hS hsch
  have hsq : splitQuery (op ++ (if fqF ∨ rqF ≠ [] then '?' :: rqF else [])) = (op, fqF, rqF) :=
    splitQuery_eval (not_contains_of_all_char hOpq (by decide)) hfq
  have hpc : parseCore (sc.map Char.toLower) op fqF rqF =
      some ⟨sc, op, [], [], fqF, rqF, []⟩ := by
    rw [schemeOK_lower_fix hS]
    unfold parseCore
    rw [if_pos ?hcnd, if_pos (by simpa using hsch)]
    case hcnd =>
      cases op with
      | nil => exact absurd rfl hop
      | cons c cs => simpa using hophead
  by_cases hf : frF = []
  · subst hf
    have hfc : cutChar '#' (urlStringL ⟨sc, op, [], pa, fqF, rqF, []⟩) =
        (sc ++ ':' :: (op ++ (if fqF ∨ rqF ≠ [] then '?' :: rqF else [])), [], false) := by
      rw [hstr]
      rw [if_neg (show ¬(([] : Chars) ≠ []) by simp)]
      rw [List.append_nil]
      exact cutChar_of_not_contains hA_hash
    have hres := parseL_eval_found hall hfc hgs (by rw [hsq]; exact hpc)
    rw [hres]
    unfold postParse
    dsimp only
    rw [if_pos (show op ≠ [] from hop)]
    simp
  · have hfc : cutChar '#' (urlStringL ⟨sc, op, [], pa, fqF, rqF, frF⟩) =
        (sc ++ ':' :: (op ++ (if fqF ∨ rqF ≠ [] then '?' :: rqF else [])), frF, true) := by
      rw [hstr]
      rw [if_pos (show frF ≠ [] from hf)]
      exact cutChar_append hA_hash
    have hres := parseL_eval_found hall hfc hgs (by rw [hsq]; exact hpc)
    rw [hres]
    unfold postParse
    dsimp only
    rw [if_pos (show op ≠ [] from hop)]
    simp

theorem hostAll_urlChar {c : Char} (h : (hostChar c || c.isDigit || c == ':') = true) :
    urlChar c = true := by
  simp only [Bool.or_eq_true] at h
  rcases h with (h | h) | h
  · exact hostChar_urlChar h
  · exact digit_urlChar h
  · rw [beq_iff_eq] at h
    subst h
    decide

theorem parseCore_nilRest {sch : Chars} {fq : Bool} {rq : Chars} :
    parseCore sch [] fq rq = some ⟨sch, [], [], [], fq, rq, []⟩ := by
  unfold parseCore
  rw [if_pos (by simp)]
  by_cases hs : sch = []
  · subst hs
    rw [if_neg (by simp)]
    rw [if_neg (by simp [cutChar])]
  · rw [if_pos hs]

theorem parseCore_authority {sch ho pa : Chars} {fq : Bool} {rq : Chars}
    (hOK : hostOKL ho = true)
    (hslash : ho.contains '/' = false)
    (hne : ho ≠ [] ∨ sch ≠ [])
    (hpa : pa = [] ∨ pa.head? = some '/') :
    parseCore sch ('/' :: '/' :: (ho ++ pa)) fq rq =
      some ⟨sch, [], ho, pa, fq, rq, []⟩ := by
  unfold parseCore
  rw [if_neg (by simp)]
  rw [if_pos ?hcnd]
  case hcnd =>
    by_cases hs : sch = []
    · subst hs
      have hh : ho ≠ [] := by
        rcases hne with h | h
        · exact h
        · exact absurd rfl h
      obtain ⟨c, cs, rfl⟩ : ∃ c cs, ho = c :: cs := by
        cases ho with
        | nil => exact absurd rfl hh
        | cons c cs => exact ⟨c, cs, rfl⟩
      have hcne : c ≠ '/' := by
        simp only [List.contains_cons, Bool.or_eq_false_iff] at hslash
        intro hc
        subst hc
        simpa using hslash.1
      simp [List.take, hcne]
    · simp [List.take, hs]
  · simp only [List.drop_succ_cons, List.drop_zero]
    rcases hpa with hp | hp
    · subst hp
      rw [List.append_nil, cutChar_of_not_contains hslash]
      simp only
      rw [hostOK_parseHost hOK]
      simp
    · cases pa with
      | nil => simp at hp
      | cons c t =>
        simp only [List.head?_cons, Option.some.injEq] at hp
        subst hp
        rw [cutChar_append hslash]
        simp only
        rw [hostOK_parseHost hOK]
        simp

theorem parseCore_relPath {pa : Chars} {fq : Bool} {rq : Chars}
    (hhead : pa.head? ≠ some '/')
    (hcolon : (firstSegment pa).contains ':' = false) :
    parseCore [] pa fq rq = some ⟨[], [], [], pa, fq, rq, []⟩ := by
  unfold parseCore
  rw [if_pos (by simpa using hhead)]
  rw [if_neg (by simp)]
  rw [if_neg ?hcol]
  case hcol =>
    unfold firstSegment at hcolon
    simp only [List.contains_eq_any_beq, List.any_eq_false, beq_iff_eq] at hcolon
    intro hx
    simp only [List.contains_eq_any_beq, List.any_eq_true, beq_iff_eq] at hx
    obtain ⟨x, hmem, rfl⟩ := hx
    exact hcolon _ hmem rfl

theorem parseCore_absPath {pa : Chars} {fq : Bool} {rq : Chars}
    (hhead : pa.head? = some '/')
    (h10 : pa.take 2 = ['/', '/'] → pa.take 3 = ['/', '/', '/']) :
    parseCore [] pa fq rq = some ⟨[], [], [], pa, fq, rq, []⟩ := by
  unfold parseCore
  rw [if_neg (by simp [hhead])]
  rw [if_neg ?hcnd]
  case hcnd =>
    by_cases htk : pa.take 2 = ['/', '/']
    · simp [htk, h10 htk]
    · simp [htk]

theorem getScheme_noScheme_parts {pa tail : Chars}
    (hcolon : (firstSegment pa).contains ':' = false)
    (htail : (tail.dropWhile schemeContChar).head? ≠ some ':') :
    getSchemeAux true [] (pa ++ tail) = .noScheme := by
  apply getSchemeAux_noScheme
  rw [List.dropWhile_append]
  cases hdw : pa.dropWhile schemeContChar with
  | nil => simpa using htail
  | cons c cs =>
    simp only [List.isEmpty_cons, Bool.false_eq_true, if_false, List.cons_append,
      List.head?_cons, ne_eq, Option.some.injEq]
    intro hc
    subst hc
    have hcol : (pa.dropWhile schemeContChar).head? = some ':' := by
      rw [hdw]
      rfl
    rw [dropWhile_head_colon hcol] at hcolon
    simp at hcolon

theorem parse_assemble_scheme {sc BODY : Chars} {fqF : Bool} {rqF frF : Chars} {u0 : GoURL}
    (hS : schemeOKL sc = true) (hsc : sc ≠ [])
    (hBall : BODY.all urlChar = true)
    (hBq : BODY.contains '?' = false) (hBh : BODY.contains '#' = false)
    (hQ : rqF.all queryChar = true) (hF : frF.all urlChar = true)
    (hfq : fqF = true → rqF = [])
    (hpc : parseCore sc BODY fqF rqF = some u0)
    (h0 : u0.fragment = []) :
    parseL ((sc ++ ':' :: (BODY ++ (if fqF ∨ rqF ≠ [] then '?' :: rqF else []))) ++
        (if frF ≠ [] then '#' :: frF else [])) =
      some { u0 with fragment := frF } := by
  have hA_all : (sc ++ ':' :: (BODY ++ (if fqF ∨ rqF ≠ [] then '?' :: rqF else []))).all
      urlChar = true := by
    simp only [List.all_append, List.all_cons, Bool.and_eq_true]
    refine ⟨?_, by decide, hBall, ?_⟩
    · have h2 := schemeOK_all hS
      rw [List.all_eq_true] at h2 ⊢
      exact fun c hc => schemeAll_urlChar (h2 c hc)
    · split
      · simp only [List.all_cons, Bool.and_eq_true]
        refine ⟨by decide, ?_⟩
        rw [List.all_eq_true] at hQ ⊢
        exact fun c hc => queryChar_urlChar (hQ c hc)
      · simp
  have hall : ((sc ++ ':' :: (BODY ++ (if fqF ∨ rqF ≠ [] then '?' :: rqF else []))) ++
      (if frF ≠ [] then '#' :: frF else [])).all urlChar = true := by
    rw [List.all_append, Bool.and_eq_true]
    refine ⟨hA_all, ?_⟩
    split
    · simp only [List.all_cons, Bool.and_eq_true]
      exact ⟨by decide, hF⟩
    · simp
  have hA_hash : (sc ++ ':' :: (BODY ++ (if fqF ∨ rqF ≠ [] then '?' :: rqF else []))).contains
      '#' = false := by
    simp only [contains_append, List.contains_cons, Bool.or_eq_false_iff]
    refine ⟨not_contains_of_all_char (schemeOK_all hS) (by decide), ⟨by decide, hBh, ?_⟩⟩
    split
    · simp only [List.contains_cons, Bool.or_eq_false_iff]
      exact ⟨by decide, not_contains_of_all_char hQ (by decide)⟩
    · simp [List.contains_eq_any_beq]
  have hgs : getSchemeAux true []
      (sc ++ ':' :: (BODY ++ (if fqF ∨ rqF ≠ [] then '?' :: rqF else []))) =
      .found sc (BODY ++ (if fqF ∨ rqF ≠ [] then '?' :: rqF else [])) :=
    getScheme_eval hS hsc
  have hsq : splitQuery (BODY ++ (if fqF ∨ rqF ≠ [] then '?' :: rqF else [])) =
      (BODY, fqF, rqF) := splitQuery_eval hBq hfq
  by_cases hf : frF = []
  · subst hf
    have hfc : cutChar '#'
        ((sc ++ ':' :: (BODY ++ (if fqF ∨ rqF ≠ [] then '?' :: rqF else []))) ++
         (if ([] : Chars) ≠ [] then '#' :: ([] : Chars) else [])) =
        (sc ++ ':' :: (BODY ++ (if fqF ∨ rqF ≠ [] then '?' :: rqF else [])), [], false) := by
      rw [if_neg (show ¬(([] : Chars) ≠ []) by simp)]
      rw [List.append_nil]
      exact cutChar_of_not_contains hA_hash
    have hres := parseL_eval_found hall hfc hgs
      (by rw [hsq, schemeOK_lower_fix hS]; exact hpc)
    rw [hres]
    cases u0 with
    | mk a b c d e f g =>
      dsimp only at h0
      subst h0
      simp
  · have hfc : cutChar '#'
        ((sc ++ ':' :: (BODY ++ (if fqF ∨ rqF ≠ [] then '?' :: rqF else []))) ++
         (if frF ≠ [] then '#' :: frF else [])) =
        (sc ++ ':' :: (BODY ++ (if fqF ∨ rqF ≠ [] then '?' :: rqF else [])), frF, true) := by
      rw [if_pos (show frF ≠ [] from hf)]
      exact cutChar_append hA_hash
    have hres := parseL_eval_found hall hfc hgs
      (by rw [hsq, schemeOK_lower_fix hS]; exact hpc)
    rw [hres]
    simp

theorem parse_assemble_noscheme {BODY : Chars} {fqF : Bool} {rqF frF : Chars} {u0 : GoURL}
    (hBall : BODY.all urlChar = true)
    (hBq : BODY.contains '?' = false) (hBh : BODY.contains '#' = false)
    (hQ : rqF.all queryChar = true) (hF : frF.all urlChar = true)
    (hfq : fqF = true → rqF = [])
    (hns : getSchemeAux true [] (BODY ++ (if fqF ∨ rqF ≠ [] then '?' :: rqF else [])) =
      .noScheme)
    (hpc : parseCore [] BODY fqF rqF = some u0)
    (h0 : u0.fragment = []) :
    parseL ((BODY ++ (if fqF ∨ rqF ≠ [] then '?' :: rqF else [])) ++
        (if frF ≠ [] then '#' :: frF else [])) =
      some { u0 with fragment := frF } := by
  have hA_all : (BODY ++ (if fqF ∨ rqF ≠ [] then '?' :: rqF else [])).all urlChar = true := by
    simp only [List.all_append, Bool.and_eq_true]
    refine ⟨hBall, ?_⟩
    split
    · simp only [List.all_cons, Bool.and_eq_true]
      refine ⟨by decide, ?_⟩
      rw [List.all_eq_true] at hQ ⊢
      exact fun c hc => queryChar_urlChar (hQ c hc)
    · simp
  have hall : ((BODY ++ (if fqF ∨ rqF ≠ [] then '?' :: rqF else [])) ++
      (if frF ≠ [] then '#' :: frF else [])).all urlChar = true := by
    rw [List.all_append, Bool.and_eq_true]
    refine ⟨hA_all, ?_⟩
    split
    · simp only [List.all_cons, Bool.and_eq_true]
      exact ⟨by decide, hF⟩
    · simp
  have hA_hash : (BODY ++ (if fqF ∨ rqF ≠ [] then '?' :: rqF else [])).contains '#' = false := by
    simp only [contains_append, Bool.or_eq_false_iff]
    refine ⟨hBh, ?_⟩
    split
    · simp only [List.contains_cons, Bool.or_eq_false_iff]
      exact ⟨by decide, not_contains_of_all_char hQ (by decide)⟩
    · simp [List.contains_eq_any_beq]
  have hsq : splitQuery (BODY ++ (if fqF ∨ rqF ≠ [] then '?' :: rqF else [])) =
      (BODY, fqF, rqF) := splitQuery_eval hBq hfq
  by_cases hf : frF = []
  · subst hf
    have hfc : cutChar '#'
        ((BODY ++ (if fqF ∨ rqF ≠ [] then '?' :: rqF else [])) ++
         (if ([] : Chars) ≠ [] then '#' :: ([] : Chars) else [])) =
        (BODY ++ (if fqF ∨ rqF ≠ [] then '?' :: rqF else []), [], false) := by
      rw [if_neg (show ¬(([] : Chars) ≠ []) by simp)]
      rw [List.append_nil]
      exact cutChar_of_not_contains hA_hash
    have hres := parseL_eval_noScheme hall hfc hns (by rw [hsq]; exact hpc)
    rw [hres]
    cases u0 with
    | mk a b c d e f g =>
      dsimp only at h0
      subst h0
      simp
  · have hfc : cutChar '#'
        ((BODY ++ (if fqF ∨ rqF ≠ [] then '?' :: rqF else [])) ++
         (if frF ≠ [] then '#' :: frF else [])) =
        (BODY ++ (if fqF ∨ rqF ≠ [] then '?' :: rqF else []), frF, true) := by
      rw [if_pos (show frF ≠ [] from hf)]
      exact cutChar_append hA_hash
    have hres := parseL_eval_noScheme hall hfc hns (by rw [hsq]; exact hpc)
    rw [hres]
    simp

theorem parse_urlString {u : GoURL} (hw : wfURL u = true)
    (hfq : u.forceQuery = true → u.rawQuery = []) :
    parseL (urlStringL u) = some (postParse u) := by
  obtain ⟨sc, op, ho, pa, fqF, rqF, frF⟩ := u
  dsimp only at hfq
  by_cases hop : op = []
  case neg => exact parse_urlString_opaque hw hfq hop
  subst hop
  obtain ⟨hS, -, -, hHost, hPath, hQuery, hFrag, h8, h9, h10⟩ := wfURL_iff.1 hw
  dsimp only at hS hHost hPath hQuery hFrag h8 h9 h10
  have hpp : postParse ⟨sc, [], ho, pa, fqF, rqF, frF⟩ = ⟨sc, [], ho, pa, fqF, rqF, frF⟩ := by
    unfold postParse
    rw [if_neg (by simp)]
  rw [hpp]
  have hPq : pa.contains '?' = false := not_contains_of_all_char hPath (by decide)
  have hPh : pa.contains '#' = false := not_contains_of_all_char hPath (by decide)
  have hPu : pa.all urlChar = true := by
    rw [List.all_eq_true] at hPath ⊢
    exact fun c hc => pathChar_urlChar (hPath c hc)
  by_cases hho : ho = []
  case neg =>
    have hpa8 : pa = [] ∨ pa.head? = some '/' := h8 (Or.inr hho)
    have hHu : ho.all urlChar = true := by
      have h2 := hostOK_all hHost
      rw [List.all_eq_true] at h2 ⊢
      exact fun c hc => hostAll_urlChar (h2 c hc)
    have hHs : ho.contains '/' = false :=
      not_contains_of_all_char (hostOK_all hHost) (by decide)
    have hHq : ho.contains '?' = false :=
      not_contains_of_all_char (hostOK_all hHost) (by decide)
    have hHh : ho.contains '#' = false :=
      not_contains_of_all_char (hostOK_all hHost) (by decide)
    have hBall : ('/' :: '/' :: (ho ++ pa)).all urlChar = true := by
      simp only [List.all_cons, List.all_append, Bool.and_eq_true]
      exact ⟨by decide, by decide, hHu, hPu⟩
    have hBq : ('/' :: '/' :: (ho ++ pa)).contains '?' = false := by
      simp only [List.contains_cons, contains_append, Bool.or_eq_false_iff]
      exact ⟨by decide, by decide, hHq, hPq⟩
    have hBh : ('/' :: '/' :: (ho ++ pa)).contains '#' = false := by
      simp only [List.contains_cons, contains_append, Bool.or_eq_false_iff]
      exact ⟨by decide, by decide, hHh, hPh⟩
    have hpc : parseCore sc ('/' :: '/' :: (ho ++ pa)) fqF rqF =
        some ⟨sc, [], ho, pa, fqF, rqF, []⟩ :=
      parseCore_authority hHost hHs (Or.inl hho) hpa8
    have hslashF : ¬(pa ≠ [] ∧ pa.head? ≠ some '/' ∧ ho ≠ []) := by
      rintro ⟨hp1, hp2, -⟩
      rcases hpa8 with hp | hp
      · exact hp1 hp
      · exact hp2 hp
    have hdotF : ¬(sc = [] ∧ ho = [] ∧ (firstSegment pa).contains ':' = true) := by
      rintro ⟨-, hh0, -⟩
      exact hho hh0
    by_cases hsc : sc = []
    · subst hsc
      have hstr : urlStringL ⟨[], [], ho, pa, fqF, rqF, frF⟩ =
          (('/' :: '/' :: (ho ++ pa)) ++ (if fqF ∨ rqF ≠ [] then '?' :: rqF else [])) ++
          (if frF ≠ [] then '#' :: frF else []) := by
        unfold urlStringL
        dsimp only
        rw [if_neg (by simp), if_neg (by simp), if_pos (Or.inr hho), if_pos (Or.inl hho),
          if_neg hslashF, if_neg hdotF]
        simp [List.append_assoc]
      have hns : getSchemeAux true []
          (('/' :: '/' :: (ho ++ pa)) ++ (if fqF ∨ rqF ≠ [] then '?' :: rqF else [])) =
          .noScheme := by
        apply getSchemeAux_noScheme
        rw [List.cons_append, List.dropWhile_cons_of_neg (by decide)]
        simp
      have hres := parse_assemble_noscheme hBall hBq hBh hQuery hFrag hfq hns hpc rfl
      rw [hstr, hres]
    · have hstr : urlStringL ⟨sc, [], ho, pa, fqF, rqF, frF⟩ =
          (sc ++ ':' :: (('/' :: '/' :: (ho ++ pa)) ++
            (if fqF ∨ rqF ≠ [] then '?' :: rqF else []))) ++
          (if frF ≠ [] then '#' :: frF else []) := by
        unfold urlStringL
        dsimp only
        rw [if_pos hsc, if_neg (by simp), if_pos (Or.inl hsc), if_pos (Or.inl hho),
          if_neg hslashF, if_neg hdotF]
        simp [List.append_assoc]
      have hres := parse_assemble_scheme hS hsc hBall hBq hBh hQuery hFrag hfq hpc rfl
      rw [hstr, hres]
  case pos =>
  subst hho
  by_cases hsc : sc = []
  case pos =>
    subst hsc
    have hcol : (firstSegment pa).contains ':' = false := by
      by_cases hphead : pa.head? = some '/'
      · cases pa with
        | nil => simp at hphead
        | cons c t =>
          simp only [List.head?_cons, Option.some.injEq] at hphead
          subst hphead
          simp [firstSegment, cutChar]
      · exact h9 ⟨rfl, rfl, hphead⟩
    have hcolm : ':' ∉ firstSegment pa := by
      simp only [List.contains_eq_any_beq, List.any_eq_false, beq_iff_eq] at hcol
      exact fun hmem => hcol ':' hmem rfl
    have hstr : urlStringL ⟨[], [], [], pa, fqF, rqF, frF⟩ =
        (pa ++ (if fqF ∨ rqF ≠ [] then '?' :: rqF else [])) ++
        (if frF ≠ [] then '#' :: frF else []) := by
      unfold urlStringL
      dsimp only
      rw [if_neg (by simp), if_neg (by simp), if_neg (by simp), if_neg (by simp),
        if_neg (by simp [hcolm])]
      simp [List.append_assoc]
    have hqp : (((if fqF ∨ rqF ≠ [] then '?' :: rqF else
        []) : Chars).dropWhile schemeContChar).head? ≠ some ':' := by
      split
      · rw [List.dropWhile_cons_of_neg (by decide)]
        simp
      · simp
    have hns : getSchemeAux true []
        (pa ++ (if fqF ∨ rqF ≠ [] then '?' :: rqF else [])) = .noScheme :=
      getScheme_noScheme_parts hcol hqp
    have hpc : parseCore [] pa fqF rqF = some ⟨[], [], [], pa, fqF, rqF, []⟩ := by
      by_cases hphead : pa.head? = some '/'
      · exact parseCore_absPath hphead (fun htk => h10 ⟨rfl, rfl, htk⟩)
      · exact parseCore_relPath hphead hcol
    have hres := parse_assemble_noscheme hPu hPq hPh hQuery hFrag hfq hns hpc rfl
    rw [hstr, hres]
  case neg =>
    have hpa8 : pa = [] ∨ pa.head? = some '/' := h8 (Or.inl hsc)
    rcases hpa8 with hpa | hpa
    · subst hpa
      have hstr : urlStringL ⟨sc, [], [], [], fqF, rqF, frF⟩ =
          (sc ++ ':' :: (([] : Chars) ++ (if fqF ∨ rqF ≠ [] then '?' :: rqF else []))) ++
          (if frF ≠ [] then '#' :: frF else []) := by
        unfold urlStringL
        dsimp only
        rw [if_pos hsc, if_neg (by simp), if_pos (Or.inl hsc), if_neg (by simp),
          if_neg (by simp), if_neg (by simp [hsc])]
        simp [List.append_assoc]
      have hpc : parseCore sc [] fqF rqF = some ⟨sc, [], [], [], fqF, rqF, []⟩ :=
        parseCore_nilRest
      have hres := parse_assemble_scheme hS hsc (by decide) (by decide) (by decide)
        hQuery hFrag hfq hpc rfl
      rw [hstr, hres]
    · have hne : pa ≠ [] := by
        intro hnil
        rw [hnil] at hpa
        simp at hpa
      have hBall : ('/' :: '/' :: (([] : Chars) ++ pa)).all urlChar = true := by
        simp only [List.nil_append, List.all_cons, Bool.and_eq_true]
        exact ⟨by decide, by decide, hPu⟩
      have hBq : ('/' :: '/' :: (([] : Chars) ++ pa)).contains '?' = false := by
        simp only [List.nil_append, List.contains_cons, Bool.or_eq_false_iff]
        exact ⟨by decide, by decide, hPq⟩
      have hBh : ('/' :: '/' :: (([] : Chars) ++ pa)).contains '#' = false := by
        simp only [List.nil_append, List.contains_cons, Bool.or_eq_false_iff]
        exact ⟨by decide, by decide, hPh⟩
      have hpc : parseCore sc ('/' :: '/' :: (([] : Chars) ++ pa)) fqF rqF =
          some ⟨sc, [], [], pa, fqF, rqF, []⟩ :=
        parseCore_authority (by decide) (by decide) (Or.inr hsc) (Or.inr hpa)
      have hstr : urlStringL ⟨sc, [], [], pa, fqF, rqF, frF⟩ =
          (sc ++ ':' :: (('/' :: '/' :: (([] : Chars) ++ pa)) ++
            (if fqF ∨ rqF ≠ [] then '?' :: rqF else []))) ++
          (if frF ≠ [] then '#' :: frF else []) := by
        unfold urlStringL
        dsimp only
        rw [if_pos hsc, if_neg (by simp), if_pos (Or.inl hsc), if_pos (Or.inr hne),
          if_neg (by simp), if_neg (by simp [hsc])]
        simp [List.append_assoc]
      have hres := parse_assemble_scheme hS hsc hBall hBq hBh hQuery hFrag hfq hpc rfl
      rw [hstr, hres]

theorem suffix_colon {ds l : Chars} (h : (':' :: ds).isSuffixOf l = true) :
    l.contains ':' = true := by
  rw [List.isSuffixOf_iff_suffix] at h
  obtain ⟨pre, hpre⟩ := h
  subst hpre
  simp [contains_append, List.contains_cons]

theorem hostOK_cases {h : Chars} (hOK : hostOKL h = true) :
    (h.all hostChar = true ∧ h.contains ':' = false) ∨
    (∃ hn p, h = hn ++ ':' :: p ∧ hn.all hostChar = true ∧ hn.contains ':' = false ∧
      p.all Char.isDigit = true) := by
  unfold hostOKL at hOK
  rcases hcut : cutChar ':' h with ⟨hn, p, f⟩
  rw [hcut] at hOK
  cases f with
  | false =>
    obtain ⟨ha, hb, hfree⟩ := cutChar_not_found hcut
    subst ha
    exact Or.inl ⟨hOK, hfree⟩
  | true =>
    obtain ⟨hs, hfree⟩ := cutChar_found hcut
    simp only [Bool.and_eq_true] at hOK
    exact Or.inr ⟨hn, p, hs, hOK.1, hfree, hOK.2⟩

theorem trimSuffix_of_append {pre suf : Chars} :
    trimSuffixL (pre ++ suf) suf = pre := by
  unfold trimSuffixL
  rw [if_pos (by rw [List.isSuffixOf_iff_suffix]; exact ⟨pre, rfl⟩)]
  have hlen : (pre ++ suf).length - suf.length = pre.length := by
    simp [List.length_append]
  rw [hlen, List.take_left]

theorem hostOK_trim {h ds : Chars} (hOK : hostOKL h = true)
    (hsuf : (':' :: ds).isSuffixOf h = true) :
    h = trimSuffixL h (':' :: ds) ++ ':' :: ds ∧
    (trimSuffixL h (':' :: ds)).contains ':' = false ∧
    (trimSuffixL h (':' :: ds)).all hostChar = true ∧
    hostOKL (trimSuffixL h (':' :: ds)) = true := by
  rw [List.isSuffixOf_iff_suffix] at hsuf
  obtain ⟨pre, hpre⟩ := hsuf
  subst hpre
  rw [trimSuffix_of_append]
  refine ⟨rfl, ?_⟩
  rcases hostOK_cases hOK with ⟨-, hfree⟩ | ⟨hn, p, heq, hnall, hnfree, hpd⟩
  · exfalso
    rw [contains_append, List.contains_cons] at hfree
    simp at hfree
  · by_cases hpc : pre.contains ':' = true
    · exfalso
      rcases hcut2 : cutChar ':' pre with ⟨a, b, f⟩
      cases f with
      | false =>
        obtain ⟨-, -, hfree2⟩ := cutChar_not_found hcut2
        rw [hfree2] at hpc
        exact Bool.false_ne_true hpc
      | true =>
        obtain ⟨hps, hafree⟩ := cutChar_found hcut2
        have h1 : cutChar ':' (pre ++ ':' :: ds) = (a, b ++ ':' :: ds, true) := by
          rw [hps, List.append_assoc, List.cons_append]
          exact cutChar_append hafree
        have h2 : cutChar ':' (pre ++ ':' :: ds) = (hn, p, true) := by
          rw [heq]
          exact cutChar_append hnfree
        rw [h1] at h2
        simp only [Prod.mk.injEq] at h2
        have hpcol : p.contains ':' = true := by
          rw [← h2.2.1, contains_append, List.contains_cons]
          simp
        have := not_contains_of_all_char hpd (show (':').isDigit = false by decide)
        rw [this] at hpcol
        exact Bool.false_ne_true hpcol
    · have hpc0 : pre.contains ':' = false := by
        cases hc : pre.contains ':'
        · rfl
        · exact absurd hc hpc
      have h1 : cutChar ':' (pre ++ ':' :: ds) = (pre, ds, true) := cutChar_append hpc0
      have h2 : cutChar ':' (pre ++ ':' :: ds) = (hn, p, true) := by
        rw [heq]
        exact cutChar_append hnfree
      rw [h1] at h2
      simp only [Prod.mk.injEq] at h2
      obtain ⟨hpn, -, -⟩ := h2
      subst hpn
      refine ⟨hpc0, hnall, ?_⟩
      unfold hostOKL
      rw [cutChar_of_not_contains hpc0]
      exact hnall

theorem lowerL_all_hostChar {h : Chars} (hall : h.all hostChar = true) :
    (lowerL h).all hostChar = true := by
  unfold lowerL
  rw [List.all_map]
  rw [List.all_eq_true] at hall ⊢
  intro c hc
  exact hostChar_toLower (hall c hc)

theorem lowerL_digits {p : Chars} (hp : p.all Char.isDigit = true) : lowerL p = p := by
  unfold lowerL
  rw [List.all_eq_true] at hp
  rw [List.map_congr_left (fun c hc => toLower_of_isDigit (hp c hc))]
  exact List.map_id p

theorem hostOK_lowerL {h : Chars} (hOK : hostOKL h = true) : hostOKL (lowerL h) = true := by
  rcases hostOK_cases hOK with ⟨hall, -⟩ | ⟨hn, p, heq, hnall, -, hpd⟩
  · have hall2 : (lowerL h).all hostChar = true := lowerL_all_hostChar hall
    have hfree2 : (lowerL h).contains ':' = false :=
      not_contains_of_all_char hall2 (by decide)
    unfold hostOKL
    rw [cutChar_of_not_contains hfree2]
    exact hall2
  · subst heq
    have hsplit : lowerL (hn ++ ':' :: p) = lowerL hn ++ ':' :: lowerL p := by
      rw [lowerL_append]
      unfold lowerL
      rw [List.map_cons]
      rw [show (':').toLower = ':' from toLower_eq_self (by decide)]
    rw [hsplit, lowerL_digits hpd]
    have hnall2 : (lowerL hn).all hostChar = true := lowerL_all_hostChar hnall
    have hnfree2 : (lowerL hn).contains ':' = false :=
      not_contains_of_all_char hnall2 (by decide)
    unfold hostOKL
    rw [cutChar_append hnfree2]
    simp only [Bool.and_eq_true]
    exact ⟨hnall2, hpd⟩

theorem lowerL_take (k : Nat) (l : Chars) :
    lowerL ((lowerL l).take k) = (lowerL l).take k := by
  unfold lowerL
  rw [← List.map_take, List.map_map]
  exact List.map_congr_left (fun c _ => toLower_idem c)

theorem lowerL_trim_lower (l suf : Chars) :
    lowerL (trimSuffixL (lowerL l) suf) = trimSuffixL (lowerL l) suf := by
  unfold trimSuffixL
  split
  · exact lowerL_take _ l
  · exact lowerL_idem l

theorem http_ne_https : (['h', 't', 't', 'p'] : Chars) ≠ ['h', 't', 't', 'p', 's'] := by
  decide

theorem normalizeURL_eq_spec (u : GoURL) : normalizeURL u = specNormalizeURL u := by
  obtain ⟨sc, op, ho, pa, fq, rq, fr⟩ := u
  simp only [normalizeURL, specNormalizeURL]
  by_cases h80 : sc = ['h', 't', 't', 'p'] ∧ [':', '8', '0'].isSuffixOf (lowerL ho) = true
  · rw [if_pos h80, if_pos h80]
    dsimp only
    rw [if_neg (show ¬(sc = ['h', 't', 't', 'p', 's'] ∧
        [':', '4', '4', '3'].isSuffixOf (trimSuffixL (lowerL ho) [':', '8', '0']) = true) from
      fun hc => http_ne_https (h80.1 ▸ hc.1))]
    by_cases hpa : pa = []
    · simp [hpa]
    · simp [hpa]
  · rw [if_neg h80, if_neg h80]
    dsimp only
    by_cases h443 : sc = ['h', 't', 't', 'p', 's'] ∧
        [':', '4', '4', '3'].isSuffixOf (lowerL ho) = true
    · rw [if_pos h443, if_pos h443]
      by_cases hpa : pa = []
      · simp [hpa]
      · simp [hpa]
    · rw [if_neg h443, if_neg h443]
      by_cases hpa : pa = []
      · simp [hpa]
      · simp [hpa]

/-- The host the normalisation produces, written as a standalone
function of the scheme and the original host (for reasoning only). -/
theorem specNormalizeURL_fields (u : GoURL) :
    (specNormalizeURL u).scheme = u.scheme ∧
    (specNormalizeURL u).opq = u.opq ∧
    (specNormalizeURL u).path = (if u.path = [] then ['/'] else u.path) ∧
    (specNormalizeURL u).forceQuery = u.forceQuery ∧
    (specNormalizeURL u).rawQuery = u.rawQuery ∧
    (specNormalizeURL u).fragment = [] := by
  obtain ⟨sc, op, ho, pa, fq, rq, fr⟩ := u
  simp [specNormalizeURL]

theorem specNormalizeURL_host {u : GoURL} (hOK : hostOKL u.host = true) :
    hostOKL (specNormalizeURL u).host = true ∧
    ((specNormalizeURL u).host = [] → u.host = [] ∨ u.scheme ≠ []) ∧
    (u.host = [] → (specNormalizeURL u).host = []) ∧
    lowerL (specNormalizeURL u).host = (specNormalizeURL u).host ∧
    (u.scheme = ['h', 't', 't', 'p'] →
      [':', '8', '0'].isSuffixOf (specNormalizeURL u).host = false) ∧
    (u.scheme = ['h', 't', 't', 'p', 's'] →
      [':', '4', '4', '3'].isSuffixOf (specNormalizeURL u).host = false) := by
  obtain ⟨sc, op, ho, pa, fq, rq, fr⟩ := u
  simp only [specNormalizeURL]
  dsimp only at hOK ⊢
  have hlowOK : hostOKL (lowerL ho) = true := hostOK_lowerL hOK
  by_cases h80 : sc = ['h', 't', 't', 'p'] ∧ [':', '8', '0'].isSuffixOf (lowerL ho) = true
  · rw [if_pos h80]
    obtain ⟨-, hfree, -, htOK⟩ := hostOK_trim hlowOK h80.2
    refine ⟨htOK, ?_, ?_, ?_, ?_, ?_⟩
    · intro _
      exact Or.inr (by rw [h80.1]; decide)
    · intro hho
      subst hho
      have : lowerL ([] : Chars) = [] := rfl
      rw [this] at h80
      exact absurd h80.2 (by decide)
    · exact lowerL_trim_lower ho [':', '8', '0']
    · intro _
      cases hsuf : [':', '8', '0'].isSuffixOf (trimSuffixL (lowerL ho) [':', '8', '0'])
      · rfl
      · rw [suffix_colon hsuf] at hfree
        exact absurd hfree (by decide)
    · intro hs
      exact absurd (h80.1 ▸ hs) http_ne_https
  · rw [if_neg h80]
    by_cases h443 : sc = ['h', 't', 't', 'p', 's'] ∧
        [':', '4', '4', '3'].isSuffixOf (lowerL ho) = true
    · rw [if_pos h443]
      obtain ⟨-, hfree, -, htOK⟩ := hostOK_trim hlowOK h443.2
      refine ⟨htOK, ?_, ?_, ?_, ?_, ?_⟩
      · intro _
        exact Or.inr (by rw [h443.1]; decide)
      · intro hho
        subst hho
        have : lowerL ([] : Chars) = [] := rfl
        rw [this] at h443
        exact absurd h443.2 (by decide)
      · exact lowerL_trim_lower ho [':', '4', '4', '3']
      · intro hs
        exact absurd (hs.symm.trans h443.1) http_ne_https
      · intro _
        cases hsuf : [':', '4', '4', '3'].isSuffixOf (trimSuffixL (lowerL ho) [':', '4', '4', '3'])
        · rfl
        · rw [suffix_colon hsuf] at hfree
          exact absurd hfree (by decide)
    · rw [if_neg h443]
      refine ⟨hlowOK, ?_, ?_, lowerL_idem ho, ?_, ?_⟩
      · intro hl
        refine Or.inl ?_
        unfold lowerL at hl
        exact List.map_eq_nil_iff.1 hl
      · intro hho
        subst hho
        rfl
      · intro hs
        cases hsuf : [':', '8', '0'].isSuffixOf (lowerL ho)
        · rfl
        · exact absurd ⟨hs, hsuf⟩ h80
      · intro hs
        cases hsuf : [':', '4', '4', '3'].isSuffixOf (lowerL ho)
        · rfl
        · exact absurd ⟨hs, hsuf⟩ h443

theorem goURL_ext {a b : GoURL} (h1 : a.scheme = b.scheme) (h2 : a.opq = b.opq)
    (h3 : a.host = b.host) (h4 : a.path = b.path) (h5 : a.forceQuery = b.forceQuery)
    (h6 : a.rawQuery = b.rawQuery) (h7 : a.fragment = b.fragment) : a = b := by
  cases a
  cases b
  dsimp only at h1 h2 h3 h4 h5 h6 h7
  subst h1 h2 h3 h4 h5 h6 h7
  rfl

theorem specNormalize_host_noop {v : GoURL}
    (hfix : lowerL v.host = v.host)
    (h80 : v.scheme = ['h', 't', 't', 'p'] → [':', '8', '0'].isSuffixOf v.host = false)
    (h443 : v.scheme = ['h', 't', 't', 'p', 's'] →
      [':', '4', '4', '3'].isSuffixOf v.host = false) :
    (specNormalizeURL v).host = v.host := by
  obtain ⟨sc, op, ho, pa, fq, rq, fr⟩ := v
  dsimp only at hfix h80 h443
  simp only [specNormalizeURL]
  rw [hfix]
  rw [if_neg (show ¬(sc = ['h', 't', 't', 'p'] ∧ [':', '8', '0'].isSuffixOf ho = true) from by
    rintro ⟨hs, hsuf⟩
    rw [h80 hs] at hsuf
    exact Bool.false_ne_true hsuf)]
  rw [if_neg (show ¬(sc = ['h', 't', 't', 'p', 's'] ∧
      [':', '4', '4', '3'].isSuffixOf ho = true) from by
    rintro ⟨hs, hsuf⟩
    rw [h443 hs] at hsuf
    exact Bool.false_ne_true hsuf)]

theorem specNormalize_idem {u : GoURL} (hOK : hostOKL u.host = true) :
    specNormalizeURL (specNormalizeURL u) = specNormalizeURL u := by
  obtain ⟨-, -, -, hlowfix, h80f, h443f⟩ := specNormalizeURL_host hOK
  obtain ⟨hsch, hopq, hpath, hfq, hrq, hfrag⟩ := specNormalizeURL_fields u
  obtain ⟨hsch2, hopq2, hpath2, hfq2, hrq2, hfrag2⟩ :=
    specNormalizeURL_fields (specNormalizeURL u)
  apply goURL_ext
  · rw [hsch2]
  · rw [hopq2]
  · exact specNormalize_host_noop hlowfix
      (fun hs => h80f (hsch.symm.trans hs))
      (fun hs => h443f (hsch.symm.trans hs))
  · rw [hpath2, hpath]
    by_cases hup : u.path = []
    · simp [hup]
    · simp [hup]
  · rw [hfq2]
  · rw [hrq2]
  · rw [hfrag2, hfrag]

theorem wf_specNormalize {u : GoURL} (hw : wfURL u = true) :
    wfURL (specNormalizeURL u) = true := by
  obtain ⟨hS, hOpq, hOpq3, hHost, hPath, hQuery, hFrag, h8, h9, h10⟩ := wfURL_iff.1 hw
  obtain ⟨hsch, hopq, hpath, hfq, hrq, hfrag⟩ := specNormalizeURL_fields u
  obtain ⟨hOK2, hhost2, hhost3, -, -, -⟩ := specNormalizeURL_host hHost
  rw [wfURL_iff, hsch, hopq, hpath, hrq, hfrag]
  refine ⟨hS, hOpq, ?_, hOK2, ?_, hQuery, by decide, ?_, ?_, ?_⟩
  · rcases hOpq3 with h | ⟨a, b, c, d⟩
    · exact Or.inl h
    · refine Or.inr ⟨a, b, hhost3 c, ?_⟩
      rcases d with hd | hd
      · rw [if_pos hd]
        exact Or.inr rfl
      · rw [hd]
        rw [if_neg (by decide)]
        exact Or.inr rfl
  · by_cases hup : u.path = []
    · rw [if_pos hup]
      decide
    · rw [if_neg hup]
      exact hPath
  · intro h
    by_cases hup : u.path = []
    · rw [if_pos hup]
      exact Or.inr rfl
    · rw [if_neg hup]
      rcases h with h | h
      · exact h8 (Or.inl h)
      · refine h8 (Or.inr ?_)
        intro hu
        exact h (hhost3 hu)
  · rintro ⟨hs, hh, hph⟩
    by_cases hup : u.path = []
    · rw [if_pos hup] at hph
      simp at hph
    · rw [if_neg hup] at hph ⊢
      have hu : u.host = [] := by
        rcases hhost2 hh with h | h
        · exact h
        · exact absurd hs h
      exact h9 ⟨hs, hu, hph⟩
  · rintro ⟨hs, hh, htk⟩
    by_cases hup : u.path = []
    · rw [if_pos hup] at htk
      exact absurd htk (by decide)
    · rw [if_neg hup] at htk ⊢
      have hu : u.host = [] := by
        rcases hhost2 hh with h | h
        · exact h
        · exact absurd hs h
      exact h10 ⟨hs, hu, htk⟩

theorem specNormalize_postParse {u : GoURL} (hw : wfURL u = true) :
    specNormalizeURL (postParse (specNormalizeURL u)) = specNormalizeURL u := by
  obtain ⟨hsch, hopq, hpath, hfq, hrq, hfrag⟩ := specNormalizeURL_fields u
  by_cases hop : u.opq = []
  · have hpp : postParse (specNormalizeURL u) = specNormalizeURL u := by
      unfold postParse
      rw [if_neg (show ¬((specNormalizeURL u).opq ≠ []) from by
        rw [hopq, hop]
        simp)]
    rw [hpp]
    exact specNormalize_idem (wfURL_iff.1 hw).2.2.2.1
  · obtain ⟨hS, hOpq, hOpq3, hHost, hPath, hQuery, hFrag, h8, h9, h10⟩ := wfURL_iff.1 hw
    obtain ⟨-, -, hhost0, hpath01⟩ := hOpq3.resolve_left hop
    obtain ⟨-, -, -, hlowfix, h80f, h443f⟩ := specNormalizeURL_host hHost
    have hpp : postParse (specNormalizeURL u) =
        { specNormalizeURL u with path := ([] : Chars) } := by
      unfold postParse
      rw [if_pos (show (specNormalizeURL u).opq ≠ [] from by
        rw [hopq]
        exact hop)]
    rw [hpp]
    obtain ⟨hsch3, hopq3, hpath3, hfq3, hrq3, hfrag3⟩ :=
      specNormalizeURL_fields { specNormalizeURL u with path := ([] : Chars) }
    apply goURL_ext
    · rw [hsch3, hsch]
    · rw [hopq3, hopq]
    · have hnoop : (specNormalizeURL { specNormalizeURL u with path := ([] : Chars) }).host =
          ({ specNormalizeURL u with path := ([] : Chars) } : GoURL).host :=
        specNormalize_host_noop
          (show lowerL (specNormalizeURL u).host = (specNormalizeURL u).host from hlowfix)
          (fun hs => h80f (hsch.symm.trans hs))
          (fun hs => h443f (hsch.symm.trans hs))
      rw [hnoop]
    · rw [hpath3]
      rw [show ({ specNormalizeURL u with path := ([] : Chars) } : GoURL).path =
        ([] : Chars) from rfl]
      rw [if_pos rfl, hpath]
      rcases hpath01 with hd | hd
      · rw [if_pos hd]
      · rw [hd, if_neg (by decide)]
    · rw [hfq3, hfq]
    · rw [hrq3, hrq]
    · rw [hfrag3, hfrag]

theorem Key_serialize {v : GoURL} (hw : wfURL v = true)
    (hfq : v.forceQuery = true → v.rawQuery = []) :
    Key ⟨urlStringL v⟩ = ⟨urlStringL (normalizeURL (postParse v))⟩ := by
  unfold Key parseURL
  dsimp only
  rw [parse_urlString hw hfq]

theorem Key_fix {v : GoURL} (hw : wfURL v = true)
    (hfq : v.forceQuery = true → v.rawQuery = []) :
    Key ⟨urlStringL (normalizeURL v)⟩ = ⟨urlStringL (normalizeURL v)⟩ := by
  have hw2 : wfURL (normalizeURL v) = true := by
    rw [normalizeURL_eq_spec]
    exact wf_specNormalize hw
  have hfq2 : (normalizeURL v).forceQuery = true → (normalizeURL v).rawQuery = [] := by
    rw [normalizeURL_eq_spec]
    obtain ⟨-, -, -, hfq5, hrq5, -⟩ := specNormalizeURL_fields v
    rw [hfq5, hrq5]
    exact hfq
  rw [Key_serialize hw2 hfq2]
  have heq : normalizeURL (postParse (normalizeURL v)) = normalizeURL v := by
    rw [normalizeURL_eq_spec v]
    rw [normalizeURL_eq_spec (postParse (specNormalizeURL v))]
    exact specNormalize_postParse hw
  rw [heq]

theorem Key_idem (u : String) : Key (Key u) = Key u := by
  cases hp : parseL u.data with
  | none =>
    have h1 : Key u = u := by
      unfold Key parseURL
      rw [hp]
    rw [h1]
    exact h1
  | some v =>
    have h1 : Key u = ⟨urlStringL (normalizeURL v)⟩ := by
      unfold Key parseURL
      rw [hp]
    rw [h1]
    exact Key_fix (parse_wf hp) (parse_fq hp)

theorem intercalate_two (s a b : Chars) (tl : List Chars) :
    List.intercalate s (a :: b :: tl) = a ++ s ++ List.intercalate s (b :: tl) := by
  simp [List.intercalate, List.intersperse_cons_cons, List.append_assoc]

theorem mem_intercalate {c : Char} {s : Chars} {ls : List Chars} {x : Chars}
    (hx : x ∈ ls) (hc : c ∈ x) : c ∈ List.intercalate s ls := by
  induction ls with
  | nil => cases hx
  | cons a tl ih =>
    cases tl with
    | nil =>
      rw [List.mem_singleton] at hx
      subst hx
      simpa [List.intercalate] using hc
    | cons b tl2 =>
      rw [intercalate_two]
      rcases List.mem_cons.1 hx with h | h
      · subst h
        exact List.mem_append.2 (Or.inl (List.mem_append.2 (Or.inl hc)))
      · exact List.mem_append.2 (Or.inr (ih h))

theorem all_intercalate {p : Char → Bool} {s : Chars} {ls : List Chars}
    (hs : s.all p = true) (hls : ∀ x ∈ ls, x.all p = true) :
    (List.intercalate s ls).all p = true := by
  induction ls with
  | nil => rfl
  | cons a tl ih =>
    cases tl with
    | nil =>
      simpa [List.intercalate] using hls a (List.mem_singleton.2 rfl)
    | cons b tl2 =>
      rw [intercalate_two]
      simp only [List.all_append, Bool.and_eq_true]
      exact ⟨⟨hls a (List.mem_cons_self a _), hs⟩,
        ih (fun x hx => hls x (List.mem_cons_of_mem a hx))⟩

theorem all_splitOn {p : Char → Bool} {sep : Char} {l : Chars}
    (hl : l.all p = true) : ∀ x ∈ l.splitOn sep, x.all p = true := by
  intro x hx
  rw [List.all_eq_true] at hl ⊢
  intro c hc
  apply hl
  have hmem := mem_intercalate (s := [sep]) hx hc
  rwa [List.intercalate_splitOn] at hmem

theorem resolve_foldl_mem (P : Chars → Prop) {l : List Chars} {acc : List Chars}
    (hacc : ∀ x ∈ acc, P x) (hl : ∀ x ∈ l, P x) :
    ∀ x ∈ l.foldl (fun dst elem => if elem = ['.'] then dst
      else if elem = ['.', '.'] then dst.dropLast else dst ++ [elem]) acc, P x := by
  induction l generalizing acc with
  | nil => exact hacc
  | cons a tl ih =>
    intro x hx
    rw [List.foldl_cons] at hx
    refine ih ?_ (fun y hy => hl y (List.mem_cons_of_mem a hy)) x hx
    intro y hy
    by_cases h1 : a = ['.']
    · rw [if_pos h1] at hy
      exact hacc y hy
    · rw [if_neg h1] at hy
      by_cases h2 : a = ['.', '.']
      · rw [if_pos h2] at hy
        exact hacc y (List.dropLast_subset _ hy)
      · rw [if_neg h2] at hy
        rcases List.mem_append.1 hy with h | h
        · exact hacc y h
        · rw [List.mem_singleton] at h
          rw [h]
          exact hl a (List.mem_cons_self a tl)

theorem upToLastSlash_all {p : Char → Bool} {l : Chars} (h : l.all p = true) :
    (upToLastSlash l).all p = true := by
  unfold upToLastSlash
  rw [List.all_eq_true] at h ⊢
  intro c hc
  rw [List.mem_reverse] at hc
  exact h c (List.mem_reverse.1 ((List.dropWhile_sublist _).subset hc))

theorem resolvePath_all {p : Char → Bool} (hp : p '/' = true) {b r : Chars}
    (hb : b.all p = true) (hr : r.all p = true) :
    (resolvePath b r).all p = true := by
  simp only [resolvePath]
  have hfull : (if r = [] then b
      else if r.head? ≠ some '/' then upToLastSlash b ++ r else r).all p = true := by
    split
    · exact hb
    · split
      · rw [List.all_append, Bool.and_eq_true]
        exact ⟨upToLastSlash_all hb, hr⟩
      · exact hr
  generalize hF : (if r = [] then b
      else if r.head? ≠ some '/' then upToLastSlash b ++ r else r) = F at hfull ⊢
  split
  · rfl
  · simp only [List.all_cons, Bool.and_eq_true]
    refine ⟨hp, ?_⟩
    have hsrc : ∀ x ∈ F.splitOn '/', x.all p = true := all_splitOn hfull
    have hdst : ∀ x ∈ (F.splitOn '/').foldl (fun dst elem => if elem = ['.'] then dst
        else if elem = ['.', '.'] then dst.dropLast else dst ++ [elem]) [],
        x.all p = true :=
      resolve_foldl_mem (fun x => x.all p = true) (by intro y hy; cases hy) hsrc
    split
    · have hj : (List.intercalate ['/'] ((F.splitOn '/').foldl
          (fun dst elem => if elem = ['.'] then dst
            else if elem = ['.', '.'] then dst.dropLast else dst ++ [elem]) [] ++ [[]])).all
          p = true := by
        refine all_intercalate (by simp [hp]) ?_
        intro x hx
        rcases List.mem_append.1 hx with h | h
        · exact hdst x h
        · rw [List.mem_singleton] at h
          rw [h]
          rfl
      split
      · exact all_drop 1 hj
      · exact hj
    · have hj : (List.intercalate ['/'] ((F.splitOn '/').foldl
          (fun dst elem => if elem = ['.'] then dst
            else if elem = ['.', '.'] then dst.dropLast else dst ++ [elem]) [])).all
          p = true := all_intercalate (by simp [hp]) hdst
      split
      · exact all_drop 1 hj
      · exact hj

theorem resolvePath_shape (b r : Chars) :
    resolvePath b r = [] ∨ (resolvePath b r).head? = some '/' := by
  simp only [resolvePath]
  generalize (if r = [] then b
    else if r.head? ≠ some '/' then upToLastSlash b ++ r else r) = F
  split
  · exact Or.inl rfl
  · exact Or.inr rfl

theorem resolvePath_nil_nil : resolvePath [] [] = [] := by decide

theorem resolvePath_slash_nil : resolvePath ['/'] [] = ['/'] := by decide

theorem wf_of_scheme_nonempty {sc op ho pa : Chars} {fq : Bool} {rq fr : Chars}
    (hS : schemeOKL sc = true) (hsc : sc ≠ [])
    (hOpq : op.all pathChar = true)
    (hOpq3 : op = [] ∨ (op.head? ≠ some '/' ∧ ho = [] ∧ (pa = [] ∨ pa = ['/'])))
    (hHost : hostOKL ho = true)
    (hPath : pa.all pathChar = true)
    (hshape : pa = [] ∨ pa.head? = some '/')
    (hQ : rq.all queryChar = true) (hF : fr.all urlChar = true) :
    wfURL ⟨sc, op, ho, pa, fq, rq, fr⟩ = true := by
  rw [wfURL_iff]
  dsimp only
  refine ⟨hS, hOpq, ?_, hHost, hPath, hQ, hF, fun _ => hshape, ?_, ?_⟩
  · rcases hOpq3 with h | ⟨a, b, c⟩
    · exact Or.inl h
    · exact Or.inr ⟨hsc, a, b, c⟩
  · rintro ⟨h, -⟩
    exact absurd h hsc
  · rintro ⟨h, -⟩
    exact absurd h hsc

theorem resolvePath_wf_pair {pa : Chars} (h : pa = [] ∨ pa = ['/']) :
    resolvePath pa [] = [] ∨ resolvePath pa [] = ['/'] := by
  rcases h with h | h
  · rw [h]
    exact Or.inl resolvePath_nil_nil
  · rw [h]
    exact Or.inr resolvePath_slash_nil

theorem resolveReference_wf {u ref : GoURL} (hu : wfURL u = true) (href : wfURL ref = true)
    (hsc : (resolveReference u ref).scheme ≠ []) :
    wfURL (resolveReference u ref) = true := by
  obtain ⟨us, uo, uh, up, ufq, urq, ufr⟩ := u
  obtain ⟨rs, ro, rh, rp, rfq, rrq, rfr⟩ := ref
  obtain ⟨huS, huOpq, huOpq3, huHost, huPath, huQuery, huFrag, hu8, hu9, hu10⟩ :=
    wfURL_iff.1 hu
  obtain ⟨hrS, hrOpq, hrOpq3, hrHost, hrPath, hrQuery, hrFrag, hr8, hr9, hr10⟩ :=
    wfURL_iff.1 href
  dsimp only at huS huOpq huOpq3 huHost huPath huQuery huFrag hu8 hu9 hu10
  dsimp only at hrS hrOpq hrOpq3 hrHost hrPath hrQuery hrFrag hr8 hr9 hr10
  by_cases hc1 : rs = []
  case neg =>
    have hres : resolveReference ⟨us, uo, uh, up, ufq, urq, ufr⟩
        ⟨rs, ro, rh, rp, rfq, rrq, rfr⟩ =
        ⟨rs, ro, rh, resolvePath rp [], rfq, rrq, rfr⟩ := by
      simp only [resolveReference]
      rw [if_neg hc1, if_pos (Or.inl hc1)]
    rw [hres]
    refine wf_of_scheme_nonempty hrS hc1 hrOpq ?_ hrHost
      (resolvePath_all (by decide) hrPath (by decide))
      (resolvePath_shape rp []) hrQuery hrFrag
    rcases hrOpq3 with h | ⟨-, b, c, d⟩
    · exact Or.inl h
    · exact Or.inr ⟨b, c, resolvePath_wf_pair d⟩
  case pos =>
  subst hc1
  by_cases hc2 : rh = []
  case neg =>
    have hres : resolveReference ⟨us, uo, uh, up, ufq, urq, ufr⟩
        ⟨[], ro, rh, rp, rfq, rrq, rfr⟩ =
        ⟨us, ro, rh, resolvePath rp [], rfq, rrq, rfr⟩ := by
      simp only [resolveReference]
      rw [if_pos trivial, if_pos (Or.inr hc2)]
    rw [hres] at hsc ⊢
    dsimp only at hsc
    have hro : ro = [] := by
      rcases hrOpq3 with h | ⟨h, -⟩
      · exact h
      · exact absurd rfl h
    refine wf_of_scheme_nonempty huS hsc (by rw [hro]; rfl) (Or.inl hro) hrHost
      (resolvePath_all (by decide) hrPath (by decide))
      (resolvePath_shape rp []) hrQuery hrFrag
  case pos =>
  subst hc2
  have hro : ro = [] := by
    rcases hrOpq3 with h | ⟨h, -⟩
    · exact h
    · exact absurd rfl h
  subst hro
  by_cases hq : rp = [] ∧ ¬(rfq = true) ∧ rrq = []
  · by_cases h3 : rp = [] ∧ uo ≠ []
    · have hres : resolveReference ⟨us, uo, uh, up, ufq, urq, ufr⟩
          ⟨[], [], [], rp, rfq, rrq, rfr⟩ =
          ⟨us, uo, [], [], rfq, urq, if rfr = [] then ufr else rfr⟩ := by
        simp only [resolveReference]
        rw [if_pos trivial, if_neg (by rintro (h | h) <;> exact h rfl),
          if_neg (by simp), if_pos hq, if_pos h3]
      rw [hres] at hsc ⊢
      dsimp only at hsc
      have huo := huOpq3.resolve_left h3.2
      refine wf_of_scheme_nonempty huS hsc huOpq
        (Or.inr ⟨huo.2.1, rfl, Or.inl rfl⟩) (by decide) (by decide) (Or.inl rfl)
        huQuery ?_
      split
      · exact huFrag
      · exact hrFrag
    · have hres : resolveReference ⟨us, uo, uh, up, ufq, urq, ufr⟩
          ⟨[], [], [], rp, rfq, rrq, rfr⟩ =
          ⟨us, [], uh, resolvePath up rp, rfq, urq, if rfr = [] then ufr else rfr⟩ := by
        simp only [resolveReference]
        rw [if_pos trivial, if_neg (by rintro (h | h) <;> exact h rfl),
          if_neg (by simp), if_pos hq, if_neg h3]
      rw [hres] at hsc ⊢
      dsimp only at hsc
      refine wf_of_scheme_nonempty huS hsc (by decide) (Or.inl rfl) huHost
        (resolvePath_all (by decide) huPath hrPath)
        (resolvePath_shape up rp) huQuery ?_
      split
      · exact huFrag
      · exact hrFrag
  · by_cases h3 : rp = [] ∧ uo ≠ []
    · have hres : resolveReference ⟨us, uo, uh, up, ufq, urq, ufr⟩
          ⟨[], [], [], rp, rfq, rrq, rfr⟩ =
          ⟨us, uo, [], [], rfq, rrq, rfr⟩ := by
        simp only [resolveReference]
        rw [if_pos trivial, if_neg (by rintro (h | h) <;> exact h rfl),
          if_neg (by simp), if_neg hq, if_pos h3]
      rw [hres] at hsc ⊢
      dsimp only at hsc
      have huo := huOpq3.resolve_left h3.2
      exact wf_of_scheme_nonempty huS hsc huOpq
        (Or.inr ⟨huo.2.1, rfl, Or.inl rfl⟩) (by decide) (by decide) (Or.inl rfl)
        hrQuery hrFrag
    · have hres : resolveReference ⟨us, uo, uh, up, ufq, urq, ufr⟩
          ⟨[], [], [], rp, rfq, rrq, rfr⟩ =
          ⟨us, [], uh, resolvePath up rp, rfq, rrq, rfr⟩ := by
        simp only [resolveReference]
        rw [if_pos trivial, if_neg (by rintro (h | h) <;> exact h rfl),
          if_neg (by simp), if_neg hq, if_neg h3]
      rw [hres] at hsc ⊢
      dsimp only at hsc
      exact wf_of_scheme_nonempty huS hsc (by decide) (Or.inl rfl) huHost
        (resolvePath_all (by decide) huPath hrPath)
        (resolvePath_shape up rp) hrQuery hrFrag

theorem resolveReference_fq {u ref : GoURL}
    (h : ref.forceQuery = true → ref.rawQuery = []) :
    (resolveReference u ref).forceQuery = true →
      (resolveReference u ref).rawQuery = [] := by
  obtain ⟨us, uo, uh, up, ufq, urq, ufr⟩ := u
  obtain ⟨rs, ro, rh, rp, rfq, rrq, rfr⟩ := ref
  dsimp only at h
  by_cases hc1 : rs ≠ [] ∨ rh ≠ []
  · have hres : (resolveReference ⟨us, uo, uh, up, ufq, urq, ufr⟩
        ⟨rs, ro, rh, rp, rfq, rrq, rfr⟩).forceQuery = rfq ∧
        (resolveReference ⟨us, uo, uh, up, ufq, urq, ufr⟩
        ⟨rs, ro, rh, rp, rfq, rrq, rfr⟩).rawQuery = rrq := by
      simp only [resolveReference]
      rw [if_pos hc1]
      by_cases hrs : rs = []
      · rw [if_pos hrs]
        exact ⟨rfl, rfl⟩
      · rw [if_neg hrs]
        exact ⟨rfl, rfl⟩
    rw [hres.1, hres.2]
    exact h
  · have hro : (if rs = [] then
        ({ scheme := us, opq := ro, host := rh, path := rp, forceQuery := rfq,
           rawQuery := rrq, fragment := rfr } : GoURL)
      else ⟨rs, ro, rh, rp, rfq, rrq, rfr⟩) =
        ⟨us, ro, rh, rp, rfq, rrq, rfr⟩ := by
      push_neg at hc1
      rw [if_pos hc1.1]
    by_cases hc2 : ro ≠ []
    · have hres : (resolveReference ⟨us, uo, uh, up, ufq, urq, ufr⟩
          ⟨rs, ro, rh, rp, rfq, rrq, rfr⟩).forceQuery = rfq ∧
          (resolveReference ⟨us, uo, uh, up, ufq, urq, ufr⟩
          ⟨rs, ro, rh, rp, rfq, rrq, rfr⟩).rawQuery = rrq := by
        simp only [resolveReference]
        rw [if_neg hc1, if_pos hc2, hro]
        exact ⟨rfl, rfl⟩
      rw [hres.1, hres.2]
      exact h
    · by_cases hq : rp = [] ∧ ¬(rfq = true) ∧ rrq = []
      · have hres : (resolveReference ⟨us, uo, uh, up, ufq, urq, ufr⟩
            ⟨rs, ro, rh, rp, rfq, rrq, rfr⟩).forceQuery = rfq := by
          simp only [resolveReference]
          rw [if_neg hc1, if_neg hc2, hro]
          by_cases h3 : rp = [] ∧ uo ≠ []
          · rw [if_pos hq, if_pos h3]
          · rw [if_pos hq, if_neg h3]
        rw [hres]
        intro hf
        exact absurd hf hq.2.1
      · have hres : (resolveReference ⟨us, uo, uh, up, ufq, urq, ufr⟩
            ⟨rs, ro, rh, rp, rfq, rrq, rfr⟩).forceQuery = rfq ∧
            (resolveReference ⟨us, uo, uh, up, ufq, urq, ufr⟩
            ⟨rs, ro, rh, rp, rfq, rrq, rfr⟩).rawQuery = rrq := by
          simp only [resolveReference]
          rw [if_neg hc1, if_neg hc2, hro]
          by_cases h3 : rp = [] ∧ uo ≠ []
          · rw [if_neg hq, if_pos h3]
            exact ⟨rfl, rfl⟩
          · rw [if_neg hq, if_neg h3]
            exact ⟨rfl, rfl⟩
        rw [hres.1, hres.2]
        exact h

theorem postParse_host_eq (v : GoURL) : (postParse v).host = v.host := by
  unfold postParse
  split <;> rfl

theorem postParse_scheme_eq (v : GoURL) : (postParse v).scheme = v.scheme := by
  unfold postParse
  split <;> rfl

theorem postParse_setHost (v : GoURL) (X : Chars) :
    postParse { v with host := X } = { postParse v with host := X } := by
  unfold postParse
  by_cases hop : v.opq ≠ []
  · rw [if_pos (show ({ v with host := X } : GoURL).opq ≠ [] from hop), if_pos hop]
  · rw [if_neg (show ¬(({ v with host := X } : GoURL).opq ≠ []) from hop), if_neg hop]

theorem postParse_setFragment (v : GoURL) (X : Chars) :
    postParse { v with fragment := X } = { postParse v with fragment := X } := by
  unfold postParse
  by_cases hop : v.opq ≠ []
  · rw [if_pos (show ({ v with fragment := X } : GoURL).opq ≠ [] from hop), if_pos hop]
  · rw [if_neg (show ¬(({ v with fragment := X } : GoURL).opq ≠ []) from hop), if_neg hop]

theorem postParse_of_opq_nil {x : GoURL} (h : x.opq = []) : postParse x = x := by
  unfold postParse
  rw [if_neg (by rw [h]; simp)]

theorem specNormalize_lowerHost (u : GoURL) :
    specNormalizeURL { u with host := lowerL u.host } = specNormalizeURL u := by
  obtain ⟨sc, op, ho, pa, fq, rq, fr⟩ := u
  simp only [specNormalizeURL]
  rw [lowerL_idem]

theorem specNormalize_setFragment (u : GoURL) (fr2 : Chars) :
    specNormalizeURL { u with fragment := fr2 } = specNormalizeURL u := by
  obtain ⟨sc, op, ho, pa, fq, rq, fr⟩ := u
  simp only [specNormalizeURL]

theorem specNormalize_path_nil_slash (u : GoURL) :
    specNormalizeURL { u with path := ([] : Chars) } =
      specNormalizeURL { u with path := ['/'] } := by
  obtain ⟨sc, op, ho, pa, fq, rq, fr⟩ := u
  simp only [specNormalizeURL]
  simp

theorem lowerL_colon_free {h : Chars} (hfree : h.contains ':' = false) :
    (lowerL h).contains ':' = false := by
  unfold lowerL
  rw [List.contains_eq_any_beq, List.any_eq_false] at hfree ⊢
  intro x hx
  rw [List.mem_map] at hx
  obtain ⟨c, hc, hcx⟩ := hx
  subst hcx
  simp only [beq_iff_eq] at hfree ⊢
  intro hcol
  by_cases hu : 65 ≤ c.toNat ∧ c.toNat ≤ 90
  · have h2 := toLower_toNat_of_upper hu.1 hu.2
    rw [← hcol] at h2
    rw [show (':').toNat = 58 from rfl] at h2
    omega
  · rw [toLower_eq_self hu] at hcol
    exact hfree c hc hcol

theorem specNormalize_port {u : GoURL} {ds : Chars}
    (hfree : u.host.contains ':' = false)
    (hcase : (u.scheme = ['h', 't', 't', 'p'] ∧ ds = ['8', '0']) ∨
      (u.scheme = ['h', 't', 't', 'p', 's'] ∧ ds = ['4', '4', '3'])) :
    specNormalizeURL { u with host := u.host ++ ':' :: ds } = specNormalizeURL u := by
  obtain ⟨sc, op, ho, pa, fq, rq, fr⟩ := u
  dsimp only at hfree hcase
  have hlfree : (lowerL ho).contains ':' = false := lowerL_colon_free hfree
  rcases hcase with ⟨hs, hds⟩ | ⟨hs, hds⟩
  · subst hs
    subst hds
    simp only [specNormalizeURL]
    rw [show lowerL (ho ++ [':', '8', '0']) = lowerL ho ++ [':', '8', '0'] from by
      rw [lowerL_append]; rfl]
    rw [if_pos (show True ∧
        [':', '8', '0'].isSuffixOf (lowerL ho ++ [':', '8', '0']) = true from
      ⟨trivial, by rw [List.isSuffixOf_iff_suffix]; exact ⟨lowerL ho, rfl⟩⟩)]
    rw [if_neg (show ¬(True ∧ [':', '8', '0'].isSuffixOf (lowerL ho) = true) from by
      rintro ⟨-, hsuf⟩
      rw [suffix_colon hsuf] at hlfree
      exact absurd hlfree (by decide))]
    rw [if_neg (show ¬((['h', 't', 't', 'p'] : Chars) = ['h', 't', 't', 'p', 's'] ∧
        [':', '4', '4', '3'].isSuffixOf (lowerL ho) = true) from by
      rintro ⟨hx, -⟩
      exact http_ne_https hx)]
    rw [show trimSuffixL (lowerL ho ++ [':', '8', '0']) [':', '8', '0'] = lowerL ho from
      trimSuffix_of_append]
  · subst hs
    subst hds
    simp only [specNormalizeURL]
    rw [show lowerL (ho ++ [':', '4', '4', '3']) = lowerL ho ++ [':', '4', '4', '3'] from by
      rw [lowerL_append]; rfl]
    rw [if_pos (show True ∧
        [':', '4', '4', '3'].isSuffixOf (lowerL ho ++ [':', '4', '4', '3']) = true from
      ⟨trivial, by rw [List.isSuffixOf_iff_suffix]; exact ⟨lowerL ho, rfl⟩⟩)]
    rw [if_neg (show ¬(True ∧ [':', '4', '4', '3'].isSuffixOf (lowerL ho) = true) from by
      rintro ⟨-, hsuf⟩
      rw [suffix_colon hsuf] at hlfree
      exact absurd hlfree (by decide))]
    rw [show trimSuffixL (lowerL ho ++ [':', '4', '4', '3']) [':', '4', '4', '3'] = lowerL ho from
      trimSuffix_of_append]
    rw [if_neg (show ¬((['h', 't', 't', 'p', 's'] : Chars) = ['h', 't', 't', 'p'] ∧
        [':', '8', '0'].isSuffixOf (lowerL ho ++ [':', '4', '4', '3']) = true) from by
      rintro ⟨hx, -⟩
      exact http_ne_https hx.symm)]
    rw [if_neg (show ¬((['h', 't', 't', 'p', 's'] : Chars) = ['h', 't', 't', 'p'] ∧
        [':', '8', '0'].isSuffixOf (lowerL ho) = true) from by
      rintro ⟨hx, -⟩
      exact http_ne_https hx.symm)]

theorem wf_port {v : GoURL} {ds : Chars} (hw : wfURL v = true)
    (hop : v.opq = []) (hfree : v.host.contains ':' = false)
    (hds : ds.all Char.isDigit = true) (hscne : v.scheme ≠ []) :
    wfURL { v with host := v.host ++ ':' :: ds } = true := by
  obtain ⟨sc, op, ho, pa, fq, rq, fr⟩ := v
  dsimp only at hop hfree hds hscne
  obtain ⟨hS, hOpq, hOpq3, hHost, hPath, hQuery, hFrag, h8, h9, h10⟩ := wfURL_iff.1 hw
  dsimp only at hS hOpq hOpq3 hHost hPath hQuery hFrag h8 h9 h10
  subst hop
  rw [wfURL_iff]
  dsimp only
  have hall : ho.all hostChar = true := by
    rcases hostOK_cases hHost with ⟨ha, -⟩ | ⟨hn, p, heq, -, -, -⟩
    · exact ha
    · exfalso
      rw [heq, contains_append, List.contains_cons] at hfree
      simp at hfree
  refine ⟨hS, rfl, Or.inl rfl, ?_, hPath, hQuery, hFrag, ?_, ?_, ?_⟩
  · unfold hostOKL
    rw [cutChar_append hfree]
    simp only [Bool.and_eq_true]
    exact ⟨hall, hds⟩
  · intro _
    exact h8 (Or.inl hscne)
  · rintro ⟨h, -⟩
    exact absurd h hscne
  · rintro ⟨h, -⟩
    exact absurd h hscne

theorem wf_lowerHost {v : GoURL} (hw : wfURL v = true) :
    wfURL { v with host := lowerL v.host } = true := by
  obtain ⟨sc, op, ho, pa, fq, rq, fr⟩ := v
  obtain ⟨hS, hOpq, hOpq3, hHost, hPath, hQuery, hFrag, h8, h9, h10⟩ := wfURL_iff.1 hw
  dsimp only at hS hOpq hOpq3 hHost hPath hQuery hFrag h8 h9 h10
  rw [wfURL_iff]
  dsimp only
  have hnil : lowerL ho = [] → ho = [] := fun h => List.map_eq_nil_iff.1 h
  refine ⟨hS, hOpq, ?_, hostOK_lowerL hHost, hPath, hQuery, hFrag, ?_, ?_, ?_⟩
  · rcases hOpq3 with h | ⟨a, b, c, d⟩
    · exact Or.inl h
    · exact Or.inr ⟨a, b, by rw [c]; rfl, d⟩
  · rintro (h | h)
    · exact h8 (Or.inl h)
    · exact h8 (Or.inr (fun hh => h (by rw [hh]; rfl)))
  · rintro ⟨hs, hh, hp⟩
    exact h9 ⟨hs, hnil hh, hp⟩
  · rintro ⟨hs, hh, htk⟩
    exact h10 ⟨hs, hnil hh, htk⟩

theorem wf_setPath_nil {v : GoURL} (hw : wfURL v = true) (hop : v.opq = []) :
    wfURL { v with path := ([] : Chars) } = true := by
  obtain ⟨sc, op, ho, pa, fq, rq, fr⟩ := v
  obtain ⟨hS, -, -, hHost, -, hQuery, hFrag, -, -, -⟩ := wfURL_iff.1 hw
  dsimp only at hS hHost hQuery hFrag hop
  subst hop
  rw [wfURL_iff]
  dsimp only
  refine ⟨hS, rfl, Or.inl rfl, hHost, rfl, hQuery, hFrag, fun _ => Or.inl rfl, ?_, ?_⟩
  · intro _
    decide
  · rintro ⟨-, -, h⟩
    exact absurd h (by decide)

theorem wf_setPath_slash {v : GoURL} (hw : wfURL v = true) (hop : v.opq = []) :
    wfURL { v with path := ['/'] } = true := by
  obtain ⟨sc, op, ho, pa, fq, rq, fr⟩ := v
  obtain ⟨hS, -, -, hHost, -, hQuery, hFrag, -, -, -⟩ := wfURL_iff.1 hw
  dsimp only at hS hHost hQuery hFrag hop
  subst hop
  rw [wfURL_iff]
  dsimp only
  refine ⟨hS, rfl, Or.inl rfl, hHost, by decide, hQuery, hFrag, fun _ => Or.inr rfl, ?_, ?_⟩
  · rintro ⟨-, -, h⟩
    exact absurd rfl h
  · rintro ⟨-, -, h⟩
    exact absurd h (by decide)

theorem key_host_lower {v : GoURL} (hw : wfURL v = true)
    (hfq : v.forceQuery = true → v.rawQuery = []) :
    Key ⟨urlStringL { v with host := lowerL v.host }⟩ = Key ⟨urlStringL v⟩ := by
  have hw2 : wfURL { v with host := lowerL v.host } = true := wf_lowerHost hw
  have hfq2 : ({ v with host := lowerL v.host } : GoURL).forceQuery = true →
      ({ v with host := lowerL v.host } : GoURL).rawQuery = [] := hfq
  rw [Key_serialize hw2 hfq2, Key_serialize hw hfq]
  have heq : normalizeURL (postParse { v with host := lowerL v.host }) =
      normalizeURL (postParse v) := by
    rw [postParse_setHost]
    rw [show lowerL v.host = lowerL (postParse v).host from by rw [postParse_host_eq]]
    rw [normalizeURL_eq_spec, normalizeURL_eq_spec]
    exact specNormalize_lowerHost (postParse v)
  rw [heq]

theorem key_fragment {v : GoURL} (hw : wfURL v = true)
    (hfq : v.forceQuery = true → v.rawQuery = [])
    {fr : Chars} (hfr : fr.all urlChar = true) :
    Key ⟨urlStringL { v with fragment := fr }⟩ = Key ⟨urlStringL v⟩ := by
  have hw2 : wfURL { v with fragment := fr } = true := wf_setFragment hw hfr
  have hfq2 : ({ v with fragment := fr } : GoURL).forceQuery = true →
      ({ v with fragment := fr } : GoURL).rawQuery = [] := hfq
  rw [Key_serialize hw2 hfq2, Key_serialize hw hfq]
  have heq : normalizeURL (postParse { v with fragment := fr }) =
      normalizeURL (postParse v) := by
    rw [postParse_setFragment]
    rw [normalizeURL_eq_spec, normalizeURL_eq_spec]
    exact specNormalize_setFragment (postParse v) fr
  rw [heq]

theorem key_path_slash {v : GoURL} (hw : wfURL v = true)
    (hfq : v.forceQuery = true → v.rawQuery = [])
    (hop : v.opq = []) :
    Key ⟨urlStringL { v with path := ([] : Chars) }⟩ =
      Key ⟨urlStringL { v with path := ['/'] }⟩ := by
  have hw1 : wfURL { v with path := ([] : Chars) } = true := wf_setPath_nil hw hop
  have hw2 : wfURL { v with path := ['/'] } = true := wf_setPath_slash hw hop
  have hfq1 : ({ v with path := ([] : Chars) } : GoURL).forceQuery = true →
      ({ v with path := ([] : Chars) } : GoURL).rawQuery = [] := hfq
  have hfq2 : ({ v with path := ['/'] } : GoURL).forceQuery = true →
      ({ v with path := ['/'] } : GoURL).rawQuery = [] := hfq
  rw [Key_serialize hw1 hfq1, Key_serialize hw2 hfq2]
  have hop1 : ({ v with path := ([] : Chars) } : GoURL).opq = [] := hop
  have hop2 : ({ v with path := ['/'] } : GoURL).opq = [] := hop
  rw [postParse_of_opq_nil hop1, postParse_of_opq_nil hop2]
  rw [normalizeURL_eq_spec, normalizeURL_eq_spec]
  rw [specNormalize_path_nil_slash]

theorem key_port {v : GoURL} {ds : Chars} (hw : wfURL v = true)
    (hfq : v.forceQuery = true → v.rawQuery = [])
    (hop : v.opq = []) (hfree : v.host.contains ':' = false)
    (hcase : (v.scheme = ['h', 't', 't', 'p'] ∧ ds = ['8', '0']) ∨
      (v.scheme = ['h', 't', 't', 'p', 's'] ∧ ds = ['4', '4', '3'])) :
    Key ⟨urlStringL { v with host := v.host ++ ':' :: ds }⟩ = Key ⟨urlStringL v⟩ := by
  have hscne : v.scheme ≠ [] := by
    rcases hcase with ⟨hs, -⟩ | ⟨hs, -⟩
    · rw [hs]
      decide
    · rw [hs]
      decide
  have hds : ds.all Char.isDigit = true := by
    rcases hcase with ⟨-, hd⟩ | ⟨-, hd⟩
    · rw [hd]
      decide
    · rw [hd]
      decide
  have hw2 : wfURL { v with host := v.host ++ ':' :: ds } = true :=
    wf_port hw hop hfree hds hscne
  have hfq2 : ({ v with host := v.host ++ ':' :: ds } : GoURL).forceQuery = true →
      ({ v with host := v.host ++ ':' :: ds } : GoURL).rawQuery = [] := hfq
  rw [Key_serialize hw2 hfq2, Key_serialize hw hfq]
  have hop2 : ({ v with host := v.host ++ ':' :: ds } : GoURL).opq = [] := hop
  rw [postParse_of_opq_nil hop2, postParse_of_opq_nil hop]
  rw [normalizeURL_eq_spec, normalizeURL_eq_spec]
  rw [specNormalize_port hfree hcase]

theorem key_injective {v w : GoURL}
    (hwv : wfURL v = true) (hfqv : v.forceQuery = true → v.rawQuery = [])
    (hnv : specNormalizeURL v = v) (hopv : v.opq = [])
    (hww : wfURL w = true) (hfqw : w.forceQuery = true → w.rawQuery = [])
    (hnw : specNormalizeURL w = w) (hopw : w.opq = [])
    (hne : v ≠ w) :
    Key ⟨urlStringL v⟩ ≠ Key ⟨urlStringL w⟩ := by
  have h1 : Key ⟨urlStringL v⟩ = ⟨urlStringL v⟩ := by
    rw [Key_serialize hwv hfqv, postParse_of_opq_nil hopv, normalizeURL_eq_spec, hnv]
  have h2 : Key ⟨urlStringL w⟩ = ⟨urlStringL w⟩ := by
    rw [Key_serialize hww hfqw, postParse_of_opq_nil hopw, normalizeURL_eq_spec, hnw]
  rw [h1, h2]
  intro he
  have hdata : urlStringL v = urlStringL w := congrArg String.data he
  have hv := parse_urlString hwv hfqv
  have hw2 := parse_urlString hww hfqw
  rw [hdata, hw2] at hv
  rw [postParse_of_opq_nil hopv, postParse_of_opq_nil hopw] at hv
  exact hne (Option.some.inj hv).symm

theorem Sanitize_ok_key_fix {href : String} {base : GoURL} {s : String}
    (hwb : wfURL base = true)
    (hok : Sanitize href base = (s, true)) :
    Key s = s := by
  unfold Sanitize at hok
  cases hp : parseURL href with
  | none =>
    rw [hp] at hok
    simp at hok
  | some ref =>
    rw [hp] at hok
    dsimp only at hok
    by_cases hbad : (resolveReference base ref).scheme ≠ ['h', 't', 't', 'p'] ∧
        (resolveReference base ref).scheme ≠ ['h', 't', 't', 'p', 's']
    · rw [if_pos hbad] at hok
      simp at hok
    · rw [if_neg hbad] at hok
      simp only [Prod.mk.injEq] at hok
      have hscne : (resolveReference base ref).scheme ≠ [] := by
        intro hnil
        exact hbad ⟨by rw [hnil]; decide, by rw [hnil]; decide⟩
      have hwabs := resolveReference_wf hwb (parse_wf hp) hscne
      have hfqabs := resolveReference_fq (u := base) (parse_fq hp)
      rw [← hok.1]
      exact Key_fix hwabs hfqabs

/-! ## Claim theorems -/

/-- C1.  The claim says processResult marks Key of the final URL as
visited when a result is a redirect, so that the final page is fetched
and printed exactly once.  The code does not: in the redirect scenario
of the repository test suite, after the redirect result for old is
processed the key of final is still not visited, the later direct link
from page2 enqueues final a second time, and the Visited line for
final appears twice in the output. -/
theorem C1_redirect_final_not_marked :
    ("https://example.com/final" ∉
      (processResult cfgRedirect none resOld sRedirect).visited) ∧
    (processResult cfgRedirect none resPage2
        (processResult cfgRedirect none resOld sRedirect)).queued =
      ["https://example.com/page2", "https://example.com/final"] ∧
    ((processResult cfgRedirect none resFinal
        (processResult cfgRedirect none resPage2
          (processResult cfgRedirect none resOld sRedirect))).output.filter
        (fun l => l == "Visited: https://example.com/final")).length = 2 := by
  decide

/-- C6.  For every behaviour of the fetcher and parser, a worker sends
exactly one Result per work item; and when a panic escapes the fetcher
or parser, the single Result sent carries a non-nil error. -/
theorem C6_worker_exactly_one_result (o : WorkerOracle) (u : String) :
    (workerSends o u).length = 1 ∧
    (∀ m, processWorkItemRun o u = .panicked m →
      (workerSends o u).all (fun r => r.err.isSome)) := by
  constructor
  · unfold workerSends
    cases processWorkItemRun o u <;> simp
  · intro m hm
    unfold workerSends
    rw [hm]
    simp

/-- Witness for C6 at a concrete panicking oracle. -/
theorem C6_worker_exactly_one_result_witness :
    (workerSends oraclePanic "https://example.com/x").length = 1 ∧
    (workerSends oraclePanic "https://example.com/x").all (fun r => r.err.isSome) :=
  ⟨(C6_worker_exactly_one_result oraclePanic "https://example.com/x").1,
   (C6_worker_exactly_one_result oraclePanic "https://example.com/x").2
     "fetcher panic!" rfl⟩

theorem NewCoordinator_workBuffer (cfg : Config) (c : Coordinator)
    (h : NewCoordinator cfg = some c) :
    c.workBuffer = bufferSizeOf cfg.numWorkers := by
  unfold NewCoordinator at h
  cases hp : parseURL cfg.startURL with
  | none => rw [hp] at h; exact absurd h (by simp)
  | some u0 =>
    rw [hp] at h
    simp only at h
    split at h
    · exact absurd h (by simp)
    · split at h
      · exact absurd h (by simp)
      · cases hq : parseURL (Sanitize cfg.startURL u0).1 with
        | none => rw [hq] at h; exact absurd h (by simp)
        | some su => rw [hq] at h; simp only [Option.some.injEq] at h; rw [← h]

theorem wrap64_eq_self {x : Int} (h1 : -(2 ^ 63) ≤ x) (h2 : x < 2 ^ 63) :
    wrap64 x = x := by
  unfold wrap64
  rw [Int.emod_eq_of_lt (by omega) (by omega)]
  omega

/-- C7 (counterexample to the claim as stated): NewCoordinator accepts
a configuration with 2^57 workers, where Go's NumWorkers * 100
overflows a 64-bit int to a negative value, and sizes the work-channel
buffer at 100 — far below max 100 (100 times the worker count). -/
theorem C7_work_buffer_overflow :
    (NewCoordinator cfgOverflow).map Coordinator.workBuffer = some 100 ∧
    (100 : Int) < 100 * cfgOverflow.numWorkers := by
  constructor
  · decide
  · decide

/-- C7 (amended).  The work-channel buffer NewCoordinator records is
bufferSizeOf of the configured worker count; it is at least 100 for
every worker count, and it equals max 100 (100 times the worker count)
whenever that product does not overflow a 64-bit int — in particular
for every practically configurable worker count, including zero and
negative ones. -/
theorem C7_work_buffer :
    (∀ w : Int, 100 ≤ bufferSizeOf w) ∧
    (∀ w : Int, -(2 ^ 63) ≤ w * 100 → w * 100 < 2 ^ 63 →
      bufferSizeOf w = max 100 (100 * w)) ∧
    (∀ cfg : Config, ∀ c : Coordinator, NewCoordinator cfg = some c →
      c.workBuffer = bufferSizeOf cfg.numWorkers) := by
  refine ⟨?_, ?_, NewCoordinator_workBuffer⟩
  · intro w
    simp only [bufferSizeOf]
    split
    · omega
    · rename_i h
      omega
  · intro w h1 h2
    simp only [bufferSizeOf]
    rw [wrap64_eq_self h1 h2]
    rcases le_or_lt 100 (w * 100) with hle | hlt
    · rw [if_neg (by omega)]
      rw [max_eq_right (by omega), Int.mul_comm]
    · rw [if_pos hlt]
      rw [max_eq_left (by omega)]

/-- C8.  In text mode a result prints the Visited line with the final
URL, the Links found line, then one line per ok output of Sanitize over
the raw links, resolved against the final URL (out-of-scope links and
duplicates included); a result carrying an error prints only the two
header lines. -/
theorem C8_text_output (r : Result) :
    (r.err = none → printResultLines r =
      ["Visited: " ++ r.finalURL, "Links found:"] ++
      (match parseURL r.finalURL with
       | none => []
       | some base =>
         (r.links.getD []).filterMap fun href =>
           if (Sanitize href base).2 then some (Sanitize href base).1 else none)) ∧
    (∀ e, r.err = some e →
      printResultLines r = ["Visited: " ++ r.finalURL, "Links found:"]) := by
  constructor
  · intro he
    unfold printResultLines sanitizeLinks
    rw [he]
  · intro e he
    unfold printResultLines
    rw [he]
    simp

/-- Witness for C8 at a concrete successful result (with a rejected, an
external and a duplicate link) and a concrete error result. -/
theorem C8_text_output_witness :
    printResultLines resText =
      ["Visited: https://example.com/", "Links found:",
       "https://example.com/a", "https://external.org/b",
       "https://example.com/a"] ∧
    printResultLines resTextErr =
      ["Visited: https://example.com/x", "Links found:"] := by
  have h1 := (C8_text_output resText).1 rfl
  have h2 := (C8_text_output resTextErr).2 "connection refused" rfl
  exact ⟨by rw [h1]; decide, by rw [h2]; decide⟩

/-- C9.  When the panic guard fires, the single Result sent has the
work item URL, nil links, a non-nil error, and an empty FinalURL; the
ordinary fetch-error path instead sets FinalURL to the requested
URL. -/
theorem C9_panic_result_fields (o : WorkerOracle) (u : String) :
    (∀ m, processWorkItemRun o u = .panicked m →
      workerSends o u =
        [{ url := u, finalURL := "", links := none,
           err := some ("worker panic: " ++ m) }]) ∧
    (∀ e, o.fetch u = .err e →
      workerSends o u =
        [{ url := u, finalURL := u, links := none, err := some e }]) := by
  constructor
  · intro m hm
    unfold workerSends
    rw [hm]
  · intro e he
    unfold workerSends processWorkItemRun
    rw [he]

/-- C10.  Sanitize never writes through the base pointer: in the heap
model every store goes through the fresh address returned by
ResolveReference, so the base URL is unchanged and the returned pair is
the one the pure Sanitize computes from the base value. -/
theorem C10_sanitize_preserves_base (href : String) (heap : Nat → GoURL)
    (basePtr freshPtr : Nat) (h : freshPtr ≠ basePtr) :
    (SanitizeHeap href heap basePtr freshPtr).1 basePtr = heap basePtr ∧
    ((SanitizeHeap href heap basePtr freshPtr).2.1,
     (SanitizeHeap href heap basePtr freshPtr).2.2) = Sanitize href (heap basePtr) := by
  unfold SanitizeHeap Sanitize
  cases hp : parseURL href with
  | none => simp
  | some ref =>
    simp only [Function.update_same, Function.update_noteq h, normalizeURL]
    split_ifs <;>
      simp_all [Function.update_same, Function.update_noteq h,
        Function.update_noteq (Ne.symm h)]

/-- Witness for C10 at the example heap: the base cell at address zero
is untouched and the returned pair matches the pure Sanitize. -/
theorem C10_sanitize_preserves_base_witness :
    (SanitizeHeap "/about" heapExample 0 1).1 0 = heapExample 0 ∧
    ((SanitizeHeap "/about" heapExample 0 1).2.1,
     (SanitizeHeap "/about" heapExample 0 1).2.2) =
      Sanitize "/about" (heapExample 0) :=
  C10_sanitize_preserves_base "/about" heapExample 0 1 (by decide)

/-- Witness for C9 at a concrete panicking oracle and a concrete
erroring oracle. -/
theorem C9_panic_result_fields_witness :
    workerSends oraclePanic "https://example.com/x" =
      [{ url := "https://example.com/x", finalURL := "", links := none,
         err := some "worker panic: fetcher panic!" }] ∧
    workerSends oracleFetchErr "https://example.com/x" =
      [{ url := "https://example.com/x", finalURL := "https://example.com/x",
         links := none, err := some "connection refused" }] :=
  ⟨(C9_panic_result_fields oraclePanic "https://example.com/x").1
      "fetcher panic!" rfl,
   (C9_panic_result_fields oracleFetchErr "https://example.com/x").2
      "connection refused" rfl⟩

/-- C3 (counterexample to the claim as stated): the Visited line of the
printed output carries the fetcher's post-redirect final URL verbatim;
for a final URL with an uppercase host the printed URL is not a fixed
point of Key, so not every printed URL is in normalised form. -/
theorem C3_visited_line_not_normalized :
    ("Visited: " ++ resUpper.finalURL) ∈ printResultLines resUpper ∧
    Key resUpper.finalURL ≠ resUpper.finalURL := by
  constructor
  · decide
  · decide

/-- C3 (amended): every sanitized link line the coordinator prints — an
element of sanitizeLinks for a page URL that parses — is a fixed point
of Key, so for the link lines the printed form and the deduplication
key coincide; the Visited line is exempt. -/
theorem C3_sanitized_links_are_key_fixed (rawLinks : List String) (pageURL link : String)
    (hmem : link ∈ sanitizeLinks rawLinks pageURL) :
    Key link = link := by
  unfold sanitizeLinks at hmem
  cases hb : parseURL pageURL with
  | none =>
    rw [hb] at hmem
    cases hmem
  | some base =>
    rw [hb] at hmem
    rw [List.mem_filterMap] at hmem
    obtain ⟨href, -, hx⟩ := hmem
    dsimp only at hx
    by_cases hok : (Sanitize href base).2 = true
    · rw [if_pos hok] at hx
      have h1 : (Sanitize href base).1 = link := Option.some.inj hx
      exact Sanitize_ok_key_fix (parse_wf hb) (by rw [← h1, ← hok])
    · rw [if_neg hok] at hx
      cases hx

theorem C3_sanitized_links_are_key_fixed_witness :
    "https://example.com/a" ∈ sanitizeLinks ["/a"] "https://example.com/" ∧
    Key "https://example.com/a" = "https://example.com/a" :=
  ⟨by decide, C3_sanitized_links_are_key_fixed ["/a"] "https://example.com/"
    "https://example.com/a" (by decide)⟩

/-- C4: Sanitize fails exactly when the href does not parse or the
resolved scheme is neither http nor https; on success it returns the
resolved URL serialised after the spec's normalisation steps (host
lowercased, default port stripped, empty path set to a single slash,
fragment cleared, query and non-empty path preserved verbatim). -/
theorem C4_sanitize_characterization (href : String) (base : GoURL) :
    ((Sanitize href base).2 = false ↔
      parseURL href = none ∨
      ∃ ref, parseURL href = some ref ∧
        (resolveReference base ref).scheme ≠ ['h', 't', 't', 'p'] ∧
        (resolveReference base ref).scheme ≠ ['h', 't', 't', 'p', 's']) ∧
    (∀ ref, parseURL href = some ref →
      ((resolveReference base ref).scheme = ['h', 't', 't', 'p'] ∨
        (resolveReference base ref).scheme = ['h', 't', 't', 'p', 's']) →
      Sanitize href base =
        (⟨urlStringL (specNormalizeURL (resolveReference base ref))⟩, true)) := by
  cases hp : parseURL href with
  | none =>
    have hS : Sanitize href base = ("", false) := by
      unfold Sanitize
      rw [hp]
    constructor
    · constructor
      · intro _
        exact Or.inl rfl
      · intro _
        rw [hS]
    · intro ref hr
      cases hr
  | some ref0 =>
    have hS : Sanitize href base =
        (if (resolveReference base ref0).scheme ≠ ['h', 't', 't', 'p'] ∧
            (resolveReference base ref0).scheme ≠ ['h', 't', 't', 'p', 's'] then
          ("", false)
        else (⟨urlStringL (normalizeURL (resolveReference base ref0))⟩, true)) := by
      unfold Sanitize
      rw [hp]
    by_cases hbad : (resolveReference base ref0).scheme ≠ ['h', 't', 't', 'p'] ∧
        (resolveReference base ref0).scheme ≠ ['h', 't', 't', 'p', 's']
    · rw [if_pos hbad] at hS
      constructor
      · constructor
        · intro _
          exact Or.inr ⟨ref0, rfl, hbad⟩
        · intro _
          rw [hS]
      · intro ref hr hgood
        injection hr with hr
        subst hr
        rcases hgood with h | h
        · exact absurd h hbad.1
        · exact absurd h hbad.2
    · rw [if_neg hbad] at hS
      constructor
      · constructor
        · intro hfalse
          rw [hS] at hfalse
          simp at hfalse
        · rintro (h | ⟨ref, hr, h1, h2⟩)
          · cases h
          · injection hr with hr
            subst hr
            exact absurd ⟨h1, h2⟩ hbad
      · intro ref hr hgood
        injection hr with hr
        subst hr
        rw [hS, normalizeURL_eq_spec]

/-- C5: Key is idempotent; two well-formed URLs that differ only in
host letter-case, in the presence of the scheme's default port, in the
fragment, or in an empty versus single-slash path receive the same key;
and Key is injective on serialised normalised URLs, so URLs that still
differ after normalisation — in path case, trailing slash, scheme,
non-default port, or query — receive distinct keys. -/
theorem C5_key_idempotent_and_classes :
    (∀ u : String, Key (Key u) = Key u) ∧
    (∀ v : GoURL, wfURL v = true → (v.forceQuery = true → v.rawQuery = []) →
      Key ⟨urlStringL { v with host := lowerL v.host }⟩ = Key ⟨urlStringL v⟩) ∧
    (∀ v : GoURL, ∀ ds : Chars, wfURL v = true → (v.forceQuery = true → v.rawQuery = []) →
      v.opq = [] → v.host.contains ':' = false →
      ((v.scheme = ['h', 't', 't', 'p'] ∧ ds = ['8', '0']) ∨
        (v.scheme = ['h', 't', 't', 'p', 's'] ∧ ds = ['4', '4', '3'])) →
      Key ⟨urlStringL { v with host := v.host ++ ':' :: ds }⟩ = Key ⟨urlStringL v⟩) ∧
    (∀ v : GoURL, ∀ fr : Chars, wfURL v = true → (v.forceQuery = true → v.rawQuery = []) →
      fr.all urlChar = true →
      Key ⟨urlStringL { v with fragment := fr }⟩ = Key ⟨urlStringL v⟩) ∧
    (∀ v : GoURL, wfURL v = true → (v.forceQuery = true → v.rawQuery = []) → v.opq = [] →
      Key ⟨urlStringL { v with path := ([] : Chars) }⟩ =
        Key ⟨urlStringL { v with path := ['/'] }⟩) ∧
    (∀ v w : GoURL, wfURL v = true → (v.forceQuery = true → v.rawQuery = []) →
      specNormalizeURL v = v → v.opq = [] →
      wfURL w = true → (w.forceQuery = true → w.rawQuery = []) →
      specNormalizeURL w = w → w.opq = [] → v ≠ w →
      Key ⟨urlStringL v⟩ ≠ Key ⟨urlStringL w⟩) :=
  ⟨Key_idem,
   fun _ hw hfq => key_host_lower hw hfq,
   fun _ _ hw hfq hop hfree hcase => key_port hw hfq hop hfree hcase,
   fun _ _ hw hfq hfr => key_fragment hw hfq hfr,
   fun _ hw hfq hop => key_path_slash hw hfq hop,
   fun _ _ hwv hfqv hnv hopv hww hfqw hnw hopw hne =>
     key_injective hwv hfqv hnv hopv hww hfqw hnw hopw hne⟩

theorem processLinks_delta (cfg : CoordConfig) (ca : Option Nat) :
    ∀ (links : List String) (n : Nat) (s : CoordState),
      ∃ k, (processLinks cfg ca n links s).1.wg = s.wg + k ∧
        (processLinks cfg ca n links s).1.enqueued = s.enqueued + k ∧
        (processLinks cfg ca n links s).1.queued.length = s.queued.length + k ∧
        (processLinks cfg ca n links s).1.processed = s.processed := by
  intro links
  induction links with
  | nil =>
    intro n s
    exact ⟨0, rfl, rfl, rfl, rfl⟩
  | cons link rest ih =>
    intro n s
    simp only [processLinks]
    split
    · exact ⟨0, rfl, rfl, rfl, rfl⟩
    · have hcases : ∀ s1 : CoordState,
          s1 = (if ¬ InScope link cfg.startHost then s
            else if Key link ∈ s.visited then s
            else if cfg.maxPages > 0 ∧ (s.visitCount : Int) ≥ cfg.maxPages then s
            else { s with visited := s.visited ++ [Key link],
                          visitCount := s.visitCount + 1,
                          wg := s.wg + 1,
                          enqueued := s.enqueued + 1,
                          queued := s.queued ++ [link] }) →
          (s1.wg = s.wg ∧ s1.enqueued = s.enqueued ∧
            s1.queued.length = s.queued.length ∧ s1.processed = s.processed) ∨
          (s1.wg = s.wg + 1 ∧ s1.enqueued = s.enqueued + 1 ∧
            s1.queued.length = s.queued.length + 1 ∧ s1.processed = s.processed) := by
        intro s1 hs1
        subst hs1
        split
        · exact Or.inl ⟨rfl, rfl, rfl, rfl⟩
        · split
          · exact Or.inl ⟨rfl, rfl, rfl, rfl⟩
          · split
            · exact Or.inl ⟨rfl, rfl, rfl, rfl⟩
            · refine Or.inr ⟨rfl, rfl, ?_, rfl⟩
              simp
      obtain ⟨k, h1, h2, h3, h4⟩ := ih (n + 1)
        (if ¬ InScope link cfg.startHost then s
          else if Key link ∈ s.visited then s
          else if cfg.maxPages > 0 ∧ (s.visitCount : Int) ≥ cfg.maxPages then s
          else { s with visited := s.visited ++ [Key link],
                        visitCount := s.visitCount + 1,
                        wg := s.wg + 1,
                        enqueued := s.enqueued + 1,
                        queued := s.queued ++ [link] })
      rcases hcases _ rfl with ⟨a, b, c, d⟩ | ⟨a, b, c, d⟩
      · refine ⟨k, ?_, ?_, ?_, ?_⟩
        · rw [h1, a]
        · rw [h2, b]
        · rw [h3, c]
        · rw [h4, d]
      · refine ⟨k + 1, ?_, ?_, ?_, ?_⟩
        · rw [h1, a]
          omega
        · rw [h2, b]
          omega
        · rw [h3, c]
          omega
        · rw [h4, d]

theorem processResult_acc (cfg : CoordConfig) (ca : Option Nat) (r : Result)
    (c : CoordState) :
    ∃ k, (processResult cfg ca r c).wg = c.wg + k - 1 ∧
      (processResult cfg ca r c).enqueued = c.enqueued + k ∧
      (processResult cfg ca r c).queued.length = c.queued.length + k ∧
      (processResult cfg ca r c).processed = c.processed + 1 := by
  unfold processResult
  have hprint : ∀ s1 : CoordState,
      s1 = (if r.url ≠ r.finalURL ∧ Key r.finalURL ∈ c.visited then c
        else { c with output := c.output ++ printResultLines r }) →
      s1.wg = c.wg ∧ s1.enqueued = c.enqueued ∧
        s1.queued.length = c.queued.length ∧ s1.processed = c.processed := by
    intro s1 hs1
    subst hs1
    split
    · exact ⟨rfl, rfl, rfl, rfl⟩
    · exact ⟨rfl, rfl, rfl, rfl⟩
  obtain ⟨a, b, d, e⟩ := hprint _ rfl
  cases r.err with
  | some msg =>
    dsimp only
    exact ⟨0, by rw [a]; omega, by rw [b]; omega, by rw [d]; omega, by rw [e]⟩
  | none =>
    dsimp only
    split
    · exact ⟨0, by dsimp only; rw [a]; omega, by dsimp only; rw [b]; omega,
        by dsimp only; rw [d]; omega, by dsimp only; rw [e]⟩
    · obtain ⟨k, h1, h2, h3, h4⟩ := processLinks_delta cfg ca
        (sanitizeLinks (r.links.getD []) r.finalURL) 1
        (if r.url ≠ r.finalURL ∧ Key r.finalURL ∈ c.visited then c
          else { c with output := c.output ++ printResultLines r })
      refine ⟨k, ?_, ?_, ?_, ?_⟩
      · dsimp only
        rw [h1, a]
      · dsimp only
        rw [h2, b]
      · dsimp only
        rw [h3, d]
      · dsimp only
        rw [h4, e]


/-- C2: throughout a crawl the outstanding-work counter equals URLs
enqueued minus results processed, every enqueued URL is in exactly one
of the work queue, a worker's hands or the pending results until its
result is processed, and when the counter reaches zero no work remains
anywhere. -/
theorem C2_crawl_accounting (cfg : CoordConfig) (startURL : String) (s : CrawlState)
    (h : Reachable cfg startURL s) :
    s.coord.wg + s.coord.processed = s.coord.enqueued ∧
    s.coord.enqueued = s.coord.queued.length + s.inFlight.length + s.pending.length +
      s.coord.processed ∧
    (s.coord.wg = 0 → s.coord.queued = [] ∧ s.inFlight = [] ∧ s.pending = []) := by
  have main : s.coord.wg + s.coord.processed = s.coord.enqueued ∧
      s.coord.enqueued = s.coord.queued.length + s.inFlight.length + s.pending.length +
        s.coord.processed := by
    induction h with
    | init => exact ⟨rfl, rfl⟩
    | @step sa sb hprev hstep ih =>
      obtain ⟨ih1, ih2⟩ := ih
      cases hstep with
      | take w q t hq =>
        dsimp only
        constructor
        · exact ih1
        · rw [hq] at ih2
          simp only [List.length_cons, List.length_append, List.length_singleton, List.length_nil] at ih2 ⊢
          omega
      | emit w l1 l2 r t hif hurl =>
        dsimp only
        constructor
        · exact ih1
        · rw [hif] at ih2
          simp only [List.length_append, List.length_cons, List.length_singleton, List.length_nil] at ih2 ⊢
          omega
      | process r rest ca st hp =>
        dsimp only
        obtain ⟨k, a1, a2, a3, a4⟩ := processResult_acc cfg ca r sa.coord
        rw [hp] at ih2
        simp only [List.length_cons] at ih2
        constructor
        · rw [a1, a4]
          omega
        · rw [a2, a3, a4]
          omega
  refine ⟨main.1, main.2, fun hwg => ?_⟩
  obtain ⟨m1, m2⟩ := main
  rw [hwg] at m1
  have hlen : s.coord.queued.length = 0 ∧ s.inFlight.length = 0 ∧
      s.pending.length = 0 := by omega
  exact ⟨List.length_eq_zero.1 hlen.1, List.length_eq_zero.1 hlen.2.1,
    List.length_eq_zero.1 hlen.2.2⟩

theorem C2_crawl_accounting_witness :
    (initState "https://example.com/").coord.wg +
        (initState "https://example.com/").coord.processed =
      (initState "https://example.com/").coord.enqueued ∧
    (initState "https://example.com/").coord.enqueued =
      (initState "https://example.com/").coord.queued.length +
        (initState "https://example.com/").inFlight.length +
        (initState "https://example.com/").pending.length +
        (initState "https://example.com/").coord.processed ∧
    ((initState "https://example.com/").coord.wg = 0 →
      (initState "https://example.com/").coord.queued = [] ∧
      (initState "https://example.com/").inFlight = [] ∧
      (initState "https://example.com/").pending = []) :=
  C2_crawl_accounting cfgRedirect "https://example.com/" (initState "https://example.com/")
    Reachable.init

end Crawler
